import Mathlib

/-
Verification development for the grid-wanderer-pathways tactical simulation.

The definitions below are a shallow embedding of the TypeScript sources:
  * src/lib/gridUtils.ts                (grid geometry)
  * src/services/PathFinder.ts          (A* search and movement-range BFS)
  * src/services/DiplomacySystem.ts     (faction relations)
  * src/services/SupplySystem.ts        (bases, resupply, consumption gating)
  * src/services/CombatSystem.ts        (deterministic combat resolution)
  * src/services/UtilityAI.ts           (utility-scored AI actions)
  * src/services/BehaviorTree.ts        (behavior-tree nodes)

Modelling conventions: JavaScript numbers are embedded as ℚ where fractional
arithmetic occurs (combat, AI scores, supplies, relations) and as ℕ where the
program only ever adds and compares the integer terrain costs (path costs);
in-place mutation of objects becomes explicit state passing (functions return
the updated record); JavaScript `Map`s keyed by the injective position string
"x,y" become functions keyed by the position itself; `Math.round` is
`jsRound`, and all embedded functions are total, mirroring the sources which
throw no exceptions on these paths.
-/

set_option maxHeartbeats 1600000

/-! ## Core enumerations (src/models/UnitTypes.ts, TerrainTypes.ts) -/

inductive MovementType
  | GROUND
  | AIR
deriving DecidableEq

inductive UnitClass
  | INFANTRY
  | VEHICLE
  | AIRCRAFT
deriving DecidableEq

inductive Faction
  | PLAYER
  | ENEMY
  | NEUTRAL
deriving DecidableEq

inductive TerrainType
  | WATER
  | PLAINS
  | FOREST
  | MOUNTAIN
deriving DecidableEq

/-! ## Grid geometry (src/lib/gridUtils.ts) -/

/-- A grid position; the TypeScript interface holds two JavaScript numbers
that are always integers. -/
structure GridPosition where
  x : ℤ
  y : ℤ
deriving DecidableEq

/-- `manhattanDistance` from gridUtils.ts: |ax − bx| + |ay − by|. -/
def manhattanDistance (a b : GridPosition) : ℕ :=
  (a.x - b.x).natAbs + (a.y - b.y).natAbs

/-- Bounds check from `getNeighbors`: 0 ≤ x < width ∧ 0 ≤ y < height. -/
def inBoundsPos (width height : ℕ) (p : GridPosition) : Prop :=
  0 ≤ p.x ∧ p.x < (width : ℤ) ∧ 0 ≤ p.y ∧ p.y < (height : ℤ)

instance (width height : ℕ) (p : GridPosition) : Decidable (inBoundsPos width height p) := by
  unfold inBoundsPos; infer_instance

/-- `getNeighbors` from gridUtils.ts with the loop over the four directions
Up, Right, Down, Left unrolled; each candidate is kept when inside the grid. -/
def getNeighbors (position : GridPosition) (width height : ℕ) : List GridPosition :=
  (if inBoundsPos width height ⟨position.x, position.y - 1⟩ then [⟨position.x, position.y - 1⟩] else []) ++
  (if inBoundsPos width height ⟨position.x + 1, position.y⟩ then [⟨position.x + 1, position.y⟩] else []) ++
  (if inBoundsPos width height ⟨position.x, position.y + 1⟩ then [⟨position.x, position.y + 1⟩] else []) ++
  (if inBoundsPos width height ⟨position.x - 1, position.y⟩ then [⟨position.x - 1, position.y⟩] else [])

/-- JavaScript `Math.round`: round half toward positive infinity. -/
def jsRound (q : ℚ) : ℤ := ⌊q + 1/2⌋

/-! ## Terrain and map (src/models/TerrainTypes.ts, src/services/MapGenerator.ts) -/

/-- The per-tile terrain record; only the fields read by the verified
subsystems are carried (type, movementCost, isWalkable, isFlyable). The
repository's terrain table gives every terrain an integer movement cost. -/
structure TerrainData where
  type : TerrainType
  movementCost : ℕ
  isWalkable : Bool
  isFlyable : Bool
deriving DecidableEq

/-- A generated map. `tiles y x` is the terrain of `map.tiles[y][x]`,
modelled as a total function since tile lookups only ever happen in bounds. -/
structure GameMap where
  width : ℕ
  height : ℕ
  tiles : ℤ → ℤ → TerrainData

/-! ## Unit data (src/models/UnitTypes.ts) -/

structure UnitData where
  id : String
  name : String
  unitClass : UnitClass
  movementType : MovementType
  movementPoints : ℕ
  faction : Faction
  health : ℚ
  maxHealth : ℚ
  attackPower : ℚ
  attackRange : ℚ
  defense : ℚ
  detectionRange : ℚ
  aggressiveness : ℚ
  sensorWeight : ℚ
  healthWeight : ℚ
  allyWeight : ℚ
  fuelCurrent : ℚ
  fuelMax : ℚ
  fuelConsumptionRate : ℚ
  ammunitionCurrent : ℚ
  ammunitionMax : ℚ
  ammunitionConsumptionRate : ℚ
deriving DecidableEq

/-! ## Diplomacy (src/services/DiplomacySystem.ts) -/

inductive RelationshipStatus
  | WAR
  | HOSTILE
  | NEUTRAL
  | FRIENDLY
  | ALLIED
deriving DecidableEq

structure DiplomaticAction where
  type : String
  description : String
  value : ℚ
  origin : Faction
  target : Faction
deriving DecidableEq

/-- The diplomacy ledger state: the relations map and the append-only action
history. Listener callbacks are not modelled; `notifyListeners` only invokes
caller-supplied functions and changes no ledger state. -/
structure DiplomacySystem where
  relations : Faction × Faction → Option ℚ
  actionHistory : List DiplomaticAction

/-- Position of a faction in the lexicographic order of the enum string
values "enemy" < "neutral" < "player"; `getRelationKey` sorts the two
factions with JavaScript's default string sort, which this rank mirrors. -/
def factionRank : Faction → ℕ
  | .ENEMY => 0
  | .NEUTRAL => 1
  | .PLAYER => 2

/-- `getRelationKey`: the unordered pair canonicalised by sorting. -/
def getRelationKey (factionA factionB : Faction) : Faction × Faction :=
  if factionRank factionA ≤ factionRank factionB then (factionA, factionB)
  else (factionB, factionA)

/-- `setRelation`: clamp to [-100, 100] and store under the canonical key. -/
def setRelation (ds : DiplomacySystem) (factionA factionB : Faction) (value : ℚ) :
    DiplomacySystem :=
  let clampedValue := max (-100) (min 100 value)
  { ds with
    relations := fun key =>
      if key = getRelationKey factionA factionB then some clampedValue
      else ds.relations key }

/-- `getRelation`: identical factions are perfectly allied (100); a missing
entry defaults to neutral (0). -/
def getRelation (ds : DiplomacySystem) (factionA factionB : Faction) : ℚ :=
  if factionA = factionB then 100
  else
    match ds.relations (getRelationKey factionA factionB) with
    | some relation => relation
    | none => 0

/-- `modifyRelation`: read, add the delta, clamp, persist, and append the
`DiplomaticAction` record to the history. -/
def modifyRelation (ds : DiplomacySystem) (factionA factionB : Faction) (delta : ℚ)
    (actionType description : String) : DiplomacySystem :=
  let currentRelation := getRelation ds factionA factionB
  let newRelation := max (-100) (min 100 (currentRelation + delta))
  let ds1 := setRelation ds factionA factionB newRelation
  { ds1 with
    actionHistory := ds1.actionHistory ++
      [{ type := actionType, description := description, value := delta,
         origin := factionA, target := factionB }] }

/-- `getRelationshipStatus`: derive the five-tier classification. -/
def getRelationshipStatus (ds : DiplomacySystem) (factionA factionB : Faction) :
    RelationshipStatus :=
  let score := getRelation ds factionA factionB
  if score ≤ -60 then .WAR
  else if score ≤ -20 then .HOSTILE
  else if score < 20 then .NEUTRAL
  else if score < 60 then .FRIENDLY
  else .ALLIED

def emptyDiplomacySystem : DiplomacySystem :=
  { relations := fun _ => none, actionHistory := [] }

/-- The `DiplomacySystem` constructor: default relations player/enemy −80,
player/neutral 0, enemy/neutral −10. -/
def initDiplomacySystem : DiplomacySystem :=
  setRelation
    (setRelation (setRelation emptyDiplomacySystem .PLAYER .ENEMY (-80)) .PLAYER .NEUTRAL 0)
    .ENEMY .NEUTRAL (-10)

/-! ### C5: relation scores stay in [-100, 100] under any call sequence -/

/-- A public mutation of the relations store: either `setRelation` or
`modifyRelation` with arbitrary arguments. -/
inductive DiploOp
  | set (factionA factionB : Faction) (value : ℚ)
  | modify (factionA factionB : Faction) (delta : ℚ) (actionType description : String)

def applyDiploOp (ds : DiplomacySystem) : DiploOp → DiplomacySystem
  | .set a b v => setRelation ds a b v
  | .modify a b d t descr => modifyRelation ds a b d t descr

def applyDiploOps (ds : DiplomacySystem) (ops : List DiploOp) : DiplomacySystem :=
  ops.foldl applyDiploOp ds

/-- Every stored relation score lies in [-100, 100]. -/
def RelationsClamped (ds : DiplomacySystem) : Prop :=
  ∀ key value, ds.relations key = some value → -100 ≤ value ∧ value ≤ 100

theorem relationsClamped_setRelation (ds : DiplomacySystem) (a b : Faction) (v : ℚ)
    (h : RelationsClamped ds) : RelationsClamped (setRelation ds a b v) := by
  intro key value hkv
  simp only [setRelation] at hkv
  by_cases hk : key = getRelationKey a b
  · simp only [hk, if_pos rfl] at hkv
    obtain rfl : max (-100) (min 100 v) = value := by simpa using hkv
    constructor
    · exact le_max_left _ _
    · exact max_le (by norm_num) (min_le_left _ _)
  · simp only [if_neg hk] at hkv
    exact h key value hkv

theorem relationsClamped_modifyRelation (ds : DiplomacySystem) (a b : Faction) (d : ℚ)
    (t descr : String) (h : RelationsClamped ds) :
    RelationsClamped (modifyRelation ds a b d t descr) := by
  intro key value hkv
  simp only [modifyRelation] at hkv
  exact relationsClamped_setRelation ds a b _ h key value hkv

theorem relationsClamped_empty : RelationsClamped emptyDiplomacySystem := by
  intro key value hkv
  simp [emptyDiplomacySystem] at hkv

theorem relationsClamped_init : RelationsClamped initDiplomacySystem := by
  unfold initDiplomacySystem
  exact relationsClamped_setRelation _ _ _ _
    (relationsClamped_setRelation _ _ _ _
      (relationsClamped_setRelation _ _ _ _ relationsClamped_empty))

theorem relationsClamped_applyDiploOps (ds : DiplomacySystem) (ops : List DiploOp)
    (h : RelationsClamped ds) : RelationsClamped (applyDiploOps ds ops) := by
  induction ops generalizing ds with
  | nil => exact h
  | cons op rest ih =>
    simp only [applyDiploOps, List.foldl_cons]
    apply ih
    cases op with
    | set a b v => exact relationsClamped_setRelation ds a b v h
    | modify a b d t descr => exact relationsClamped_modifyRelation ds a b d t descr h

/-- C5: For any sequence of `setRelation` and `modifyRelation` calls with
arbitrary deltas, every relation score stored in the `DiplomacySystem`
remains in the interval [-100, 100]. -/
theorem diplomacy_relations_clamped (ops : List DiploOp) (key : Faction × Faction) (value : ℚ)
    (h : (applyDiploOps initDiplomacySystem ops).relations key = some value) :
    -100 ≤ value ∧ value ≤ 100 :=
  relationsClamped_applyDiploOps initDiplomacySystem ops relationsClamped_init key value h

/-- Witness for C5: one `modifyRelation` with delta −500 leaves the
player/enemy score stored at the clamp boundary −100, inside [-100, 100]. -/
theorem diplomacy_relations_clamped_witness :
    (-100 : ℚ) ≤ -100 ∧ (-100 : ℚ) ≤ 100 :=
  diplomacy_relations_clamped
    [DiploOp.modify .PLAYER .ENEMY (-500) "ATTACK_UNIT" "Attacked a unit"]
    (.ENEMY, .PLAYER) (-100)
    (by simp [applyDiploOps, applyDiploOp, modifyRelation, setRelation, getRelation,
          getRelationKey, factionRank, initDiplomacySystem, emptyDiplomacySystem]
        norm_num)

/-! ### C6: relationship tier boundaries -/

/-- C6: `getRelationshipStatus` derives the tier from the score with
thresholds inclusive on the side nearer zero: −60 war, −59 and −20 hostile,
19 neutral, 20 and 59 friendly, 60 allied. -/
theorem relationship_status_boundaries :
    getRelationshipStatus (setRelation initDiplomacySystem .PLAYER .ENEMY (-60)) .PLAYER .ENEMY =
      RelationshipStatus.WAR ∧
    getRelationshipStatus (setRelation initDiplomacySystem .PLAYER .ENEMY (-59)) .PLAYER .ENEMY =
      RelationshipStatus.HOSTILE ∧
    getRelationshipStatus (setRelation initDiplomacySystem .PLAYER .ENEMY (-20)) .PLAYER .ENEMY =
      RelationshipStatus.HOSTILE ∧
    getRelationshipStatus (setRelation initDiplomacySystem .PLAYER .ENEMY 19) .PLAYER .ENEMY =
      RelationshipStatus.NEUTRAL ∧
    getRelationshipStatus (setRelation initDiplomacySystem .PLAYER .ENEMY 20) .PLAYER .ENEMY =
      RelationshipStatus.FRIENDLY ∧
    getRelationshipStatus (setRelation initDiplomacySystem .PLAYER .ENEMY 59) .PLAYER .ENEMY =
      RelationshipStatus.FRIENDLY ∧
    getRelationshipStatus (setRelation initDiplomacySystem .PLAYER .ENEMY 60) .PLAYER .ENEMY =
      RelationshipStatus.ALLIED := by
  refine ⟨?_, ?_, ?_, ?_, ?_, ?_, ?_⟩ <;>
    (simp [getRelationshipStatus, getRelation, setRelation, getRelationKey, factionRank,
      initDiplomacySystem, emptyDiplomacySystem]
     norm_num)

/-! ## Supply system (src/services/SupplySystem.ts) -/

structure SupplyBase where
  id : String
  position : GridPosition
  faction : Faction
  name : String
  fuelProduction : ℚ
  ammunitionProduction : ℚ
  supplyRange : ℚ
  capturable : Bool
deriving DecidableEq

/-- The supply network state. The `map`, `pathFinder` and cached
`supplyRoutes` fields of the class are not read by the operations verified
here and are omitted. -/
structure SupplySystem where
  bases : List SupplyBase
deriving DecidableEq

/-- `getBasesByFaction`: filter the base list by owning faction. -/
def getBasesByFaction (ss : SupplySystem) (faction : Faction) : List SupplyBase :=
  ss.bases.filter (fun base => decide (base.faction = faction))

/-- `captureBase`: look the base up by id with `findIndex`; fail on a
missing or non-capturable base, otherwise replace the entry with the new
owning faction. The inner `none` case is unreachable since `findIdx?`
returns in-range indices. -/
def captureBase (ss : SupplySystem) (baseId : String) (newFaction : Faction) :
    Bool × SupplySystem :=
  match ss.bases.findIdx? (fun base => decide (base.id = baseId)) with
  | none => (false, ss)
  | some baseIndex =>
    match ss.bases.get? baseIndex with
    | none => (false, ss)
    | some base =>
      if !base.capturable then (false, ss)
      else
        (true, { ss with bases := ss.bases.set baseIndex { base with faction := newFaction } })

structure UnitSupplyInfo where
  inSupplyRange : Bool
  nearestBase : Option SupplyBase
  supplyDistance : Option ℚ
  canReceiveFuel : Bool
  canReceiveAmmo : Bool

/-- The scan inside `calculateUnitSupply`: fold the same-faction bases,
keeping the nearest one whose supply range covers the unit, with its
distance. The accumulator value `none` plays the role of the initial
`minDistance = Infinity`. -/
def nearestSupplyBase (ss : SupplySystem) (unit : UnitData) (unitPosition : GridPosition) :
    Option (SupplyBase × ℚ) :=
  (getBasesByFaction ss unit.faction).foldl
    (fun (acc : Option (SupplyBase × ℚ)) base =>
      let distance : ℚ := manhattanDistance unitPosition base.position
      match acc with
      | none => if distance ≤ base.supplyRange then some (base, distance) else none
      | some (nearestBase, minDistance) =>
        if distance ≤ base.supplyRange ∧ distance < minDistance then some (base, distance)
        else some (nearestBase, minDistance)) none

/-- `calculateUnitSupply`: report the nearest in-range base of the unit's
faction and the per-resource eligibility. -/
def calculateUnitSupply (ss : SupplySystem) (unit : UnitData) (unitPosition : GridPosition) :
    UnitSupplyInfo :=
  let nearest := nearestSupplyBase ss unit unitPosition
  { inSupplyRange := nearest.isSome
    nearestBase := nearest.map (fun nd => nd.1)
    supplyDistance := nearest.map (fun nd => nd.2)
    canReceiveFuel :=
      match nearest with
      | some (base, _) => decide (base.fuelProduction > 0)
      | none => false
    canReceiveAmmo :=
      match nearest with
      | some (base, _) => decide (base.ammunitionProduction > 0)
      | none => false }

structure ResourceConsumption where
  fuelConsumed : ℚ
  ammunitionConsumed : ℚ

/-- `calculateMovementConsumption`: fuel for the traversed tiles, excluding
the starting tile; `Math.max(0, length − 1)` is truncated ℕ subtraction. -/
def calculateMovementConsumption (unit : UnitData) (path : List GridPosition) :
    ResourceConsumption :=
  let tilesCount : ℕ := path.length - 1
  { fuelConsumed := (tilesCount : ℚ) * unit.fuelConsumptionRate, ammunitionConsumed := 0 }

/-- `calculateCombatConsumption`: combat consumes only ammunition. -/
def calculateCombatConsumption (unit : UnitData) : ResourceConsumption :=
  { fuelConsumed := 0, ammunitionConsumed := unit.ammunitionConsumptionRate }

structure MoveCheck where
  canMove : Bool
  reason : Option String
deriving DecidableEq

structure AttackCheck where
  canAttack : Bool
  reason : Option String
deriving DecidableEq

/-- `canUnitMove`: compare required fuel against the current reserve. -/
def canUnitMove (ss : SupplySystem) (unit : UnitData) (path : List GridPosition) : MoveCheck :=
  let consumption := calculateMovementConsumption unit path
  if unit.fuelCurrent < consumption.fuelConsumed then
    { canMove := false, reason := some "Not enough fuel" }
  else { canMove := true, reason := none }

/-- `canUnitAttack`: compare required ammunition against the current
reserve. -/
def canUnitAttack (ss : SupplySystem) (unit : UnitData) : AttackCheck :=
  let consumption := calculateCombatConsumption unit
  if unit.ammunitionCurrent < consumption.ammunitionConsumed then
    { canAttack := false, reason := some "Not enough ammunition" }
  else { canAttack := true, reason := none }

structure ResupplyResult where
  fuelAdded : ℚ
  ammoAdded : ℚ
  resupplied : Bool
deriving DecidableEq

/-- `resupplyUnit`: top up fuel and ammunition by `min(deficit, production)`
of the nearest in-range base, mutating the unit (returned updated). -/
def resupplyUnit (ss : SupplySystem) (unit : UnitData) (position : GridPosition) :
    UnitData × ResupplyResult :=
  let supplyInfo := calculateUnitSupply ss unit position
  if !supplyInfo.inSupplyRange then
    (unit, { fuelAdded := 0, ammoAdded := 0, resupplied := false })
  else
    match supplyInfo.nearestBase with
    | none => (unit, { fuelAdded := 0, ammoAdded := 0, resupplied := false })
    | some base =>
      let fuelNeeded := unit.fuelMax - unit.fuelCurrent
      let ammoNeeded := unit.ammunitionMax - unit.ammunitionCurrent
      let fuelAdded := min fuelNeeded base.fuelProduction
      let ammoAdded := min ammoNeeded base.ammunitionProduction
      ({ unit with
          fuelCurrent := unit.fuelCurrent + fuelAdded,
          ammunitionCurrent := unit.ammunitionCurrent + ammoAdded },
       { fuelAdded := fuelAdded, ammoAdded := ammoAdded,
         resupplied := decide (fuelAdded > 0) || decide (ammoAdded > 0) })

/-- The Player HQ installed by the `SupplySystem` constructor. -/
def playerHqBase : SupplyBase :=
  { id := "player-hq", position := ⟨2, 2⟩, faction := .PLAYER, name := "Player HQ",
    fuelProduction := 20, ammunitionProduction := 15, supplyRange := 8, capturable := false }

/-- The Enemy HQ installed by the `SupplySystem` constructor. -/
def enemyHqBase (width height : ℕ) : SupplyBase :=
  { id := "enemy-hq", position := ⟨(width : ℤ) - 3, (height : ℤ) - 3⟩, faction := .ENEMY,
    name := "Enemy HQ", fuelProduction := 20, ammunitionProduction := 15, supplyRange := 8,
    capturable := false }

/-- The Central Outpost; `Math.floor(width / 2)` is real division floored. -/
def centralOutpostBase (width height : ℕ) : SupplyBase :=
  { id := "outpost-1", position := ⟨⌊(width : ℚ) / 2⌋, ⌊(height : ℚ) / 2⌋⟩, faction := .NEUTRAL,
    name := "Central Outpost", fuelProduction := 15, ammunitionProduction := 10,
    supplyRange := 6, capturable := true }

/-- The West Outpost at `(⌊w/3⌋, ⌊h/3·2⌋)`. -/
def westOutpostBase (width height : ℕ) : SupplyBase :=
  { id := "outpost-2", position := ⟨⌊(width : ℚ) / 3⌋, ⌊(height : ℚ) / 3 * 2⌋⟩,
    faction := .NEUTRAL, name := "West Outpost", fuelProduction := 10,
    ammunitionProduction := 5, supplyRange := 5, capturable := true }

/-- The East Outpost at `(⌊w/3·2⌋, ⌊h/3⌋)`. -/
def eastOutpostBase (width height : ℕ) : SupplyBase :=
  { id := "outpost-3", position := ⟨⌊(width : ℚ) / 3 * 2⌋, ⌊(height : ℚ) / 3⌋⟩,
    faction := .NEUTRAL, name := "East Outpost", fuelProduction := 5,
    ammunitionProduction := 10, supplyRange := 5, capturable := true }

/-- The `SupplySystem` constructor: two fixed HQs plus three capturable
outposts, added in this order. -/
def initSupplySystem (width height : ℕ) : SupplySystem :=
  { bases := [playerHqBase, enemyHqBase width height, centralOutpostBase width height,
      westOutpostBase width height, eastOutpostBase width height] }

/-- The in-range flag of `calculateUnitSupply` is exactly the presence of a
nearest base. -/
theorem calculateUnitSupply_inRange (ss : SupplySystem) (unit : UnitData) (p : GridPosition) :
    (calculateUnitSupply ss unit p).inSupplyRange =
      ((calculateUnitSupply ss unit p).nearestBase).isSome := by
  unfold calculateUnitSupply
  cases nearestSupplyBase ss unit p <;> rfl

/-- C7: For a unit in supply range, `resupplyUnit` adds exactly
`min(maximum − current, base production)` of each resource of the nearest
base, so fuel and ammunition never exceed their maxima, and a unit already
at both maxima is left unchanged. -/
theorem resupplyUnit_spec (ss : SupplySystem) (unit : UnitData) (position : GridPosition)
    (base : SupplyBase)
    (hb : (calculateUnitSupply ss unit position).nearestBase = some base)
    (hfp : 0 ≤ base.fuelProduction) (hap : 0 ≤ base.ammunitionProduction) :
    (resupplyUnit ss unit position).2.fuelAdded =
      min (unit.fuelMax - unit.fuelCurrent) base.fuelProduction ∧
    (resupplyUnit ss unit position).2.ammoAdded =
      min (unit.ammunitionMax - unit.ammunitionCurrent) base.ammunitionProduction ∧
    (resupplyUnit ss unit position).1.fuelCurrent =
      unit.fuelCurrent + min (unit.fuelMax - unit.fuelCurrent) base.fuelProduction ∧
    (resupplyUnit ss unit position).1.ammunitionCurrent =
      unit.ammunitionCurrent + min (unit.ammunitionMax - unit.ammunitionCurrent)
        base.ammunitionProduction ∧
    (resupplyUnit ss unit position).1.fuelCurrent ≤ unit.fuelMax ∧
    (resupplyUnit ss unit position).1.ammunitionCurrent ≤ unit.ammunitionMax ∧
    (unit.fuelCurrent = unit.fuelMax → unit.ammunitionCurrent = unit.ammunitionMax →
      (resupplyUnit ss unit position).1 = unit) := by
  have hin : (calculateUnitSupply ss unit position).inSupplyRange = true := by
    rw [calculateUnitSupply_inRange, hb]; rfl
  have hre : resupplyUnit ss unit position =
      ({ unit with
          fuelCurrent := unit.fuelCurrent +
            min (unit.fuelMax - unit.fuelCurrent) base.fuelProduction,
          ammunitionCurrent := unit.ammunitionCurrent +
            min (unit.ammunitionMax - unit.ammunitionCurrent) base.ammunitionProduction },
        { fuelAdded := min (unit.fuelMax - unit.fuelCurrent) base.fuelProduction,
          ammoAdded := min (unit.ammunitionMax - unit.ammunitionCurrent)
            base.ammunitionProduction,
          resupplied :=
            decide (min (unit.fuelMax - unit.fuelCurrent) base.fuelProduction > 0) ||
            decide (min (unit.ammunitionMax - unit.ammunitionCurrent)
              base.ammunitionProduction > 0) }) := by
    unfold resupplyUnit
    simp only [hin, hb, Bool.not_true, Bool.false_eq_true, if_false]
  rw [hre]
  refine ⟨rfl, rfl, rfl, rfl, ?_, ?_, ?_⟩
  · have h1 : min (unit.fuelMax - unit.fuelCurrent) base.fuelProduction ≤
        unit.fuelMax - unit.fuelCurrent := min_le_left _ _
    simp only
    linarith
  · have h1 : min (unit.ammunitionMax - unit.ammunitionCurrent) base.ammunitionProduction ≤
        unit.ammunitionMax - unit.ammunitionCurrent := min_le_left _ _
    simp only
    linarith
  · intro hf ha
    have h1 : min (unit.fuelMax - unit.fuelCurrent) base.fuelProduction = 0 := by
      rw [hf]; simp [min_eq_left, hfp]
    have h2 : min (unit.ammunitionMax - unit.ammunitionCurrent) base.ammunitionProduction = 0 := by
      rw [ha]; simp [min_eq_left, hap]
    simp only [h1, h2, add_zero]

/-- A depot used by the C7 witness: faction PLAYER, 60 fuel production, in
range of the unit. -/
def witnessDepotBase : SupplyBase :=
  { id := "depot", position := ⟨2, 2⟩, faction := .PLAYER, name := "Depot",
    fuelProduction := 60, ammunitionProduction := 0, supplyRange := 8, capturable := true }

/-- The infantry template from UnitTypes.ts. -/
def sampleInfantry : UnitData :=
  { id := "infantry", name := "Infantry", unitClass := .INFANTRY, movementType := .GROUND,
    movementPoints := 4, faction := .PLAYER, health := 100, maxHealth := 100,
    attackPower := 30, attackRange := 2, defense := 10, detectionRange := 5,
    aggressiveness := 0.5, sensorWeight := 0.7, healthWeight := 0.5, allyWeight := 0.3,
    fuelCurrent := 50, fuelMax := 50, fuelConsumptionRate := 1, ammunitionCurrent := 30,
    ammunitionMax := 30, ammunitionConsumptionRate := 5 }

/-- Witness for C7: an infantry at 10/50 fuel beside a base producing 60
fuel gains exactly min(50 − 10, 60) = 40. -/
theorem resupplyUnit_spec_witness :
    (resupplyUnit ⟨[witnessDepotBase]⟩ { sampleInfantry with fuelCurrent := 10 } ⟨2, 3⟩).2.fuelAdded =
      min (50 - 10) 60 ∧
    (resupplyUnit ⟨[witnessDepotBase]⟩ { sampleInfantry with fuelCurrent := 10 } ⟨2, 3⟩).2.ammoAdded =
      min (30 - 30) 0 ∧
    (resupplyUnit ⟨[witnessDepotBase]⟩ { sampleInfantry with fuelCurrent := 10 } ⟨2, 3⟩).1.fuelCurrent =
      10 + min (50 - 10) 60 ∧
    (resupplyUnit ⟨[witnessDepotBase]⟩ { sampleInfantry with fuelCurrent := 10 } ⟨2, 3⟩).1.ammunitionCurrent =
      30 + min (30 - 30) 0 ∧
    (resupplyUnit ⟨[witnessDepotBase]⟩ { sampleInfantry with fuelCurrent := 10 } ⟨2, 3⟩).1.fuelCurrent ≤ 50 ∧
    (resupplyUnit ⟨[witnessDepotBase]⟩ { sampleInfantry with fuelCurrent := 10 } ⟨2, 3⟩).1.ammunitionCurrent ≤ 30 ∧
    ((10 : ℚ) = 50 → (30 : ℚ) = 30 →
      (resupplyUnit ⟨[witnessDepotBase]⟩ { sampleInfantry with fuelCurrent := 10 } ⟨2, 3⟩).1 =
        { sampleInfantry with fuelCurrent := 10 }) :=
  resupplyUnit_spec ⟨[witnessDepotBase]⟩ { sampleInfantry with fuelCurrent := 10 } ⟨2, 3⟩
    witnessDepotBase
    (by norm_num [calculateUnitSupply, nearestSupplyBase, getBasesByFaction,
          witnessDepotBase, sampleInfantry, manhattanDistance])
    (by norm_num [witnessDepotBase]) (by norm_num [witnessDepotBase])

/-! ### C8: capturing bases -/

/-- C8: `captureBase` fails and changes nothing on a base whose capturable
flag is false, and succeeds with an unconditional faction change on a
capturable base found by id. -/
theorem captureBase_capturable_gate (ss : SupplySystem) (baseId : String)
    (newFaction : Faction) (i : ℕ) (base : SupplyBase)
    (hi : ss.bases.findIdx? (fun b => decide (b.id = baseId)) = some i)
    (hg : ss.bases.get? i = some base) :
    (base.capturable = false → captureBase ss baseId newFaction = (false, ss)) ∧
    (base.capturable = true →
      captureBase ss baseId newFaction =
        (true, { ss with bases := ss.bases.set i { base with faction := newFaction } })) := by
  unfold captureBase
  simp only [hi, hg]
  cases hc : base.capturable <;> simp [hc]

/-- Witness for C8: on the constructor's base list for a 20×20 map, the
non-capturable Player HQ cannot be captured, while the capturable Central
Outpost transfers to the player. -/
theorem captureBase_capturable_gate_witness :
    (captureBase (initSupplySystem 20 20) "player-hq" .ENEMY = (false, initSupplySystem 20 20)) ∧
    (captureBase (initSupplySystem 20 20) "outpost-1" .PLAYER =
      (true, { initSupplySystem 20 20 with
        bases := (initSupplySystem 20 20).bases.set 2
          { centralOutpostBase 20 20 with faction := .PLAYER } })) :=
  ⟨(captureBase_capturable_gate (initSupplySystem 20 20) "player-hq" .ENEMY 0 playerHqBase
      (by simp [initSupplySystem, playerHqBase, enemyHqBase, centralOutpostBase,
            westOutpostBase, eastOutpostBase, List.findIdx?]) rfl).1 rfl,
   (captureBase_capturable_gate (initSupplySystem 20 20) "outpost-1" .PLAYER 2
      (centralOutpostBase 20 20)
      (by simp [initSupplySystem, playerHqBase, enemyHqBase, centralOutpostBase,
            westOutpostBase, eastOutpostBase, List.findIdx?]) rfl).2 rfl⟩

/-! ## Combat resolution (src/services/CombatSystem.ts) -/

structure TerrainModifiers where
  attackModifier : ℚ
  defenseModifier : ℚ

/-- The class advantage matrix from CombatSystem.ts
(attacker class → defender class → multiplier). -/
def classAdvantage : UnitClass → UnitClass → ℚ
  | .INFANTRY, .INFANTRY => 1
  | .INFANTRY, .VEHICLE => 0.7
  | .INFANTRY, .AIRCRAFT => 0.4
  | .VEHICLE, .INFANTRY => 1.5
  | .VEHICLE, .VEHICLE => 1
  | .VEHICLE, .AIRCRAFT => 0.6
  | .AIRCRAFT, .INFANTRY => 1.8
  | .AIRCRAFT, .VEHICLE => 1.4
  | .AIRCRAFT, .AIRCRAFT => 1

/-- `getTerrainModifiers`; the four cases are exhaustive, so the `default`
arm of the source switch is unreachable. -/
def getTerrainModifiers : TerrainType → TerrainModifiers
  | .PLAINS => { attackModifier := 1, defenseModifier := 1 }
  | .FOREST => { attackModifier := 0.9, defenseModifier := 1.2 }
  | .MOUNTAIN => { attackModifier := 1.1, defenseModifier := 1.3 }
  | .WATER => { attackModifier := 0.8, defenseModifier := 0.7 }

structure DiplomaticConsequence where
  type : String
  value : ℚ
  description : String
deriving DecidableEq

/-- The `CombatResult` record; `attacker` and `defender` are the unit
records as returned by the call (the source returns the same, possibly
mutated, objects it was handed). -/
structure CombatResult where
  attacker : UnitData
  defender : UnitData
  damage : ℚ
  isKill : Bool
  defenderRemainingHealth : ℚ
  ammunitionConsumed : ℚ
  diplomaticConsequence : Option DiplomaticConsequence

structure CombatSystem where
  map : GameMap
  diplomacySystem : Option DiplomacySystem
  supplySystem : Option SupplySystem


/-- The raw damage of `resolveCombat` before subtracting defense: attack
power × class advantage × attacker terrain attack modifier, inflated by 1.2
when the defender is out of supply range. The source computes this in the
local `damage`. -/
def combatRawDamage (cs : CombatSystem) (attacker : UnitData) (attackerPos : GridPosition)
    (defender : UnitData) (defenderPos : GridPosition) : ℚ :=
  let attackerMods := getTerrainModifiers (cs.map.tiles attackerPos.y attackerPos.x).type
  let damage0 := attacker.attackPower *
    classAdvantage attacker.unitClass defender.unitClass * attackerMods.attackModifier
  match cs.supplySystem with
  | some ss =>
    if !(calculateUnitSupply ss defender defenderPos).inSupplyRange then damage0 * 1.2
    else damage0
  | none => damage0

/-- The local `effectiveDefense` of `resolveCombat`: defense × defender
terrain defense modifier. -/
def combatEffectiveDefense (cs : CombatSystem) (defender : UnitData)
    (defenderPos : GridPosition) : ℚ :=
  defender.defense * (getTerrainModifiers (cs.map.tiles defenderPos.y defenderPos.x).type).defenseModifier

/-- The local `finalDamage` of `resolveCombat`:
`Math.max(1, Math.round(damage − effectiveDefense))`. -/
def finalCombatDamage (cs : CombatSystem) (attacker : UnitData) (attackerPos : GridPosition)
    (defender : UnitData) (defenderPos : GridPosition) : ℚ :=
  max 1 ((jsRound (combatRawDamage cs attacker attackerPos defender defenderPos -
    combatEffectiveDefense cs defender defenderPos) : ℤ) : ℚ)

/-- The ammunition-legality test at the top of `resolveCombat`: with a
supply network attached, `canUnitAttack` must pass. -/
def combatInsufficientAmmo (cs : CombatSystem) (attacker : UnitData) : Bool :=
  match cs.supplySystem with
  | some ss => !(canUnitAttack ss attacker).canAttack
  | none => false

/-- The early return of `resolveCombat` when ammunition is insufficient:
the fixed minimum-damage (1) outcome with zero ammunition consumed and no
unit or ledger mutation. -/
def resolveCombatNoAmmo (cs : CombatSystem) (attacker defender : UnitData) :
    CombatResult × CombatSystem :=
  ({ attacker := attacker, defender := defender, damage := 1,
     isKill := decide (defender.health ≤ 1),
     defenderRemainingHealth := max 0 (defender.health - 1),
     ammunitionConsumed := 0, diplomaticConsequence := none }, cs)

/-- The body of `resolveCombat` past the ammunition check: deduct ammo,
compute the damage pipeline, and apply the diplomatic consequence. -/
def resolveCombatMain (cs : CombatSystem) (attacker : UnitData) (attackerPos : GridPosition)
    (defender : UnitData) (defenderPos : GridPosition) : CombatResult × CombatSystem :=
  let ammunitionConsumed : ℚ :=
    match cs.supplySystem with
    | some _ => attacker.ammunitionConsumptionRate
    | none => 0
  let attacker1 :=
    { attacker with ammunitionCurrent := attacker.ammunitionCurrent - ammunitionConsumed }
  let finalDamage := finalCombatDamage cs attacker attackerPos defender defenderPos
  let remainingHealth := max 0 (defender.health - finalDamage)
  let isKill := decide (remainingHealth ≤ 0)
  let consequence :=
    match cs.diplomacySystem with
    | some diplo =>
      if attacker.faction ≠ defender.faction then
        let actionType := if isKill then "DESTROY_UNIT" else "ATTACK_UNIT"
        let actionValue : ℚ := if isKill then -25 else -15
        let diplo1 := modifyRelation diplo attacker.faction defender.faction actionValue
          actionType
          (attacker.name ++ " " ++ (if isKill then "destroyed" else "attacked") ++ " " ++
            defender.name)
        let conseq : DiplomaticConsequence :=
          { type := actionType, value := actionValue,
            description := (if isKill then "Destroying" else "Attacking") ++
              " enemy units decreases diplomatic relations" }
        (some conseq, { cs with diplomacySystem := some diplo1 })
      else (none, cs)
    | none => (none, cs)
  ({ attacker := attacker1, defender := defender, damage := finalDamage, isKill := isKill,
     defenderRemainingHealth := remainingHealth, ammunitionConsumed := ammunitionConsumed,
     diplomaticConsequence := consequence.1 }, consequence.2)

/-- `resolveCombat`. Mutation becomes explicit state: the updated attacker
travels in the result record (the source returns the mutated input
objects), and the updated system — whose diplomacy ledger `modifyRelation`
may have touched — is returned alongside. The function is total: the
insufficient-ammunition case short-circuits to the fixed minimum-damage
outcome instead of throwing. -/
def resolveCombat (cs : CombatSystem) (attacker : UnitData) (attackerPos : GridPosition)
    (defender : UnitData) (defenderPos : GridPosition) : CombatResult × CombatSystem :=
  if combatInsufficientAmmo cs attacker then resolveCombatNoAmmo cs attacker defender
  else resolveCombatMain cs attacker attackerPos defender defenderPos

theorem one_le_finalCombatDamage (cs : CombatSystem) (attacker : UnitData)
    (attackerPos : GridPosition) (defender : UnitData) (defenderPos : GridPosition) :
    1 ≤ finalCombatDamage cs attacker attackerPos defender defenderPos :=
  le_max_left 1 _

/-! ### C2: minimum damage and lethality at one health -/

/-- C2: `resolveCombat` never reports damage below 1, and a defender at
exactly 1 health is reported killed with remaining health 0 (damage ≥ 1 is
the first conjunct). -/
theorem resolveCombat_min_damage (cs : CombatSystem) (attacker : UnitData)
    (attackerPos : GridPosition) (defender : UnitData) (defenderPos : GridPosition) :
    1 ≤ (resolveCombat cs attacker attackerPos defender defenderPos).1.damage ∧
    (defender.health = 1 →
      (resolveCombat cs attacker attackerPos defender defenderPos).1.isKill = true ∧
      (resolveCombat cs attacker attackerPos defender defenderPos).1.defenderRemainingHealth = 0) := by
  unfold resolveCombat
  cases h : combatInsufficientAmmo cs attacker
  · simp only [Bool.false_eq_true, if_false]
    have h1 := one_le_finalCombatDamage cs attacker attackerPos defender defenderPos
    refine ⟨h1, fun hd => ?_⟩
    have hrem : max 0 (defender.health -
        finalCombatDamage cs attacker attackerPos defender defenderPos) = 0 := by
      rw [hd]
      exact max_eq_left (by linarith)
    constructor
    · show decide (max 0 (defender.health -
        finalCombatDamage cs attacker attackerPos defender defenderPos) ≤ 0) = true
      rw [hrem]
      norm_num
    · show max 0 (defender.health -
        finalCombatDamage cs attacker attackerPos defender defenderPos) = 0
      exact hrem
  · simp only [if_true]
    refine ⟨le_refl 1, fun hd => ⟨?_, ?_⟩⟩ <;> simp [resolveCombatNoAmmo, hd]

/-- An all-plains map where every tile is walkable and flyable with
movement cost 1; used by concrete witnesses. -/
def plainsTile : TerrainData :=
  { type := .PLAINS, movementCost := 1, isWalkable := true, isFlyable := true }

def flatMap (width height : ℕ) : GameMap :=
  { width := width, height := height, tiles := fun _ _ => plainsTile }

/-- A combat system over a flat map with no diplomacy ledger or supply
network attached. -/
def bareCombatSystem : CombatSystem :=
  { map := flatMap 10 10, diplomacySystem := none, supplySystem := none }

/-- Witness for C2: infantry attacking an enemy infantry at exactly 1
health on plains — the damage floor holds and the kill is reported. -/
theorem resolveCombat_min_damage_witness :
    1 ≤ (resolveCombat bareCombatSystem sampleInfantry ⟨0, 0⟩
      { sampleInfantry with id := "enemy-infantry", faction := .ENEMY, health := 1 } ⟨0, 1⟩).1.damage ∧
    ((resolveCombat bareCombatSystem sampleInfantry ⟨0, 0⟩
      { sampleInfantry with id := "enemy-infantry", faction := .ENEMY, health := 1 } ⟨0, 1⟩).1.isKill = true ∧
     (resolveCombat bareCombatSystem sampleInfantry ⟨0, 0⟩
      { sampleInfantry with id := "enemy-infantry", faction := .ENEMY, health := 1 } ⟨0, 1⟩).1.defenderRemainingHealth = 0) :=
  ⟨(resolveCombat_min_damage bareCombatSystem sampleInfantry ⟨0, 0⟩
      { sampleInfantry with id := "enemy-infantry", faction := .ENEMY, health := 1 } ⟨0, 1⟩).1,
   (resolveCombat_min_damage bareCombatSystem sampleInfantry ⟨0, 0⟩
      { sampleInfantry with id := "enemy-infantry", faction := .ENEMY, health := 1 } ⟨0, 1⟩).2 rfl⟩

/-! ### C3: insufficient ammunition degrades to the minimum-damage outcome -/

/-- C3: with a supply system attached and the attacker's ammunition below
its per-attack consumption rate, `resolveCombat` returns the fixed
minimum-damage outcome — damage 1, zero ammunition consumed, remaining
health `max(0, health − 1)` — and, being a total function, throws nothing;
the attacker is returned unmutated. -/
theorem resolveCombat_insufficient_ammo (cs : CombatSystem) (ss : SupplySystem)
    (attacker : UnitData) (attackerPos : GridPosition) (defender : UnitData)
    (defenderPos : GridPosition) (hss : cs.supplySystem = some ss)
    (hammo : attacker.ammunitionCurrent < attacker.ammunitionConsumptionRate) :
    (resolveCombat cs attacker attackerPos defender defenderPos).1.damage = 1 ∧
    (resolveCombat cs attacker attackerPos defender defenderPos).1.ammunitionConsumed = 0 ∧
    (resolveCombat cs attacker attackerPos defender defenderPos).1.defenderRemainingHealth =
      max 0 (defender.health - 1) ∧
    (resolveCombat cs attacker attackerPos defender defenderPos).1.attacker = attacker := by
  have hins : combatInsufficientAmmo cs attacker = true := by
    unfold combatInsufficientAmmo
    rw [hss]
    simp [canUnitAttack, calculateCombatConsumption, hammo]
  unfold resolveCombat
  rw [hins]
  simp [resolveCombatNoAmmo]

/-- Witness for C3: the combat system with an (empty-base) supply network
attached and an attacker with 2 ammunition against a consumption rate of 5. -/
theorem resolveCombat_insufficient_ammo_witness :
    (resolveCombat { bareCombatSystem with supplySystem := some ⟨[]⟩ }
      { sampleInfantry with ammunitionCurrent := 2 } ⟨0, 0⟩ sampleInfantry ⟨0, 1⟩).1.damage = 1 ∧
    (resolveCombat { bareCombatSystem with supplySystem := some ⟨[]⟩ }
      { sampleInfantry with ammunitionCurrent := 2 } ⟨0, 0⟩ sampleInfantry ⟨0, 1⟩).1.ammunitionConsumed = 0 ∧
    (resolveCombat { bareCombatSystem with supplySystem := some ⟨[]⟩ }
      { sampleInfantry with ammunitionCurrent := 2 } ⟨0, 0⟩ sampleInfantry ⟨0, 1⟩).1.defenderRemainingHealth =
      max 0 (sampleInfantry.health - 1) ∧
    (resolveCombat { bareCombatSystem with supplySystem := some ⟨[]⟩ }
      { sampleInfantry with ammunitionCurrent := 2 } ⟨0, 0⟩ sampleInfantry ⟨0, 1⟩).1.attacker =
      { sampleInfantry with ammunitionCurrent := 2 } :=
  resolveCombat_insufficient_ammo { bareCombatSystem with supplySystem := some ⟨[]⟩ } ⟨[]⟩
    { sampleInfantry with ammunitionCurrent := 2 } ⟨0, 0⟩ sampleInfantry ⟨0, 1⟩ rfl
    (by norm_num [sampleInfantry])

/-! ### C10: resolveCombat mutates no defender field and only the
attacker's ammunition -/

/-- C10: `resolveCombat` returns the defender record unchanged — every
field identical — and the attacker record changed at most in
`ammunitionCurrent`, by exactly the reported `ammunitionConsumed`; the
computed outcome is reported only through the result fields. -/
theorem resolveCombat_frame (cs : CombatSystem) (attacker : UnitData)
    (attackerPos : GridPosition) (defender : UnitData) (defenderPos : GridPosition) :
    (resolveCombat cs attacker attackerPos defender defenderPos).1.defender = defender ∧
    (resolveCombat cs attacker attackerPos defender defenderPos).1.attacker =
      { attacker with
        ammunitionCurrent := attacker.ammunitionCurrent -
          (resolveCombat cs attacker attackerPos defender defenderPos).1.ammunitionConsumed } := by
  unfold resolveCombat
  cases h : combatInsufficientAmmo cs attacker
  · simp only [Bool.false_eq_true, if_false]
    exact ⟨rfl, rfl⟩
  · simp only [if_true]
    refine ⟨rfl, ?_⟩
    show attacker = { attacker with ammunitionCurrent := attacker.ammunitionCurrent - 0 }
    simp

/-! ## Utility AI (src/services/UtilityAI.ts) -/

inductive AIAction
  | IDLE
  | MOVE_TO_ENEMY
  | ATTACK
  | RETREAT
  | PATROL
deriving DecidableEq

/-- One entry of the `enemies`/`allies`/`units` context arrays. -/
structure AIContextEnemy where
  unitData : UnitData
  position : GridPosition
deriving DecidableEq

/-- The fields of `AIContext` read by the verified decision functions. -/
structure AIContext where
  unit : UnitData
  position : GridPosition
  enemies : List AIContextEnemy
  allies : List AIContextEnemy
  map : GameMap

structure UtilityResult where
  action : AIAction
  score : ℚ
  targetPosition : Option GridPosition
  targetUnit : Option UnitData

/-- The per-enemy pursuit score computed inside `evaluateMoveToEnemy`:
`aggressiveness·0.6 + sensorWeight·0.3 + (0.2 if healthRatio > 0.7 else
−0.1) + (1 − (distance / detectionRange)·0.2)` — note the placement of the
parentheses in the last summand, exactly as in the source. -/
def pursuitScore (unit : UnitData) (distance : ℚ) : ℚ :=
  unit.aggressiveness * 0.6 + unit.sensorWeight * 0.3 +
  (if unit.health / unit.maxHealth > 0.7 then 0.2 else -0.1) +
  (1 - distance / unit.detectionRange * 0.2)

/-- `evaluateMoveToEnemy`: over enemies beyond attack range and within
detection range, keep the highest pursuit score (starting from 0) and its
target; with no enemies the score is 0 with no target. -/
def evaluateMoveToEnemy (context : AIContext) : UtilityResult :=
  if context.enemies = [] then
    { action := .MOVE_TO_ENEMY, score := 0, targetPosition := none, targetUnit := none }
  else
    let final := context.enemies.foldl
      (fun (acc : ℚ × Option UnitData × Option GridPosition) enemy =>
        let distance : ℚ := manhattanDistance context.position enemy.position
        if context.unit.attackRange < distance ∧ distance ≤ context.unit.detectionRange then
          let score := pursuitScore context.unit distance
          if acc.1 < score then (score, some enemy.unitData, some enemy.position) else acc
        else acc) (0, none, none)
    { action := .MOVE_TO_ENEMY, score := final.1, targetPosition := final.2.2,
      targetUnit := final.2.1 }

/-- Modelled from the spec (claim C4): the claimed Pursue score
`0.6·aggressiveness + 0.3·sensorWeight + (0.2 if health ratio > 0.7 else
−0.1) + (1 − distance/detectionRange)·0.2`, with the final factor 0.2
applied to the whole parenthesis. -/
def pursuitScoreClaimed (unit : UnitData) (distance : ℚ) : ℚ :=
  unit.aggressiveness * 0.6 + unit.sensorWeight * 0.3 +
  (if unit.health / unit.maxHealth > 0.7 then 0.2 else -0.1) +
  (1 - distance / unit.detectionRange) * 0.2

/-- The enemy unit of the C4 context. -/
def pursuitEnemyUnit : UnitData :=
  { sampleInfantry with id := "enemy-infantry", faction := .ENEMY }

/-- The single-enemy context used to settle C4: an infantry (attack range
2, detection range 5) and one enemy at Manhattan distance 4. -/
def pursuitContext : AIContext :=
  { unit := sampleInfantry, position := ⟨0, 0⟩,
    enemies := [{ unitData := pursuitEnemyUnit, position := ⟨0, 4⟩ }],
    allies := [], map := flatMap 10 10 }

/-- Counterexample to C4 as stated: for the enemy at distance 4 — beyond
attack range 2, within detection range 5 — the score `evaluateMoveToEnemy`
reports (31/20) differs from the spec's formula value (3/4): the code
computes `1 − (d/detectionRange)·0.2`, not `(1 − d/detectionRange)·0.2`. -/
theorem evaluateMoveToEnemy_score_counterexample :
    sampleInfantry.attackRange < 4 ∧ (4 : ℚ) ≤ sampleInfantry.detectionRange ∧
    (evaluateMoveToEnemy pursuitContext).score = 31/20 ∧
    pursuitScoreClaimed sampleInfantry 4 = 3/4 ∧
    (evaluateMoveToEnemy pursuitContext).score ≠ pursuitScoreClaimed sampleInfantry 4 := by
  refine ⟨by norm_num [sampleInfantry], by norm_num [sampleInfantry], ?_, ?_, ?_⟩ <;>
    norm_num [evaluateMoveToEnemy, pursuitContext, pursuitScore, pursuitScoreClaimed,
      sampleInfantry, manhattanDistance]

/-- C4 amended: for a single-context enemy beyond attack range and within
detection range whose pursuit score is positive, `evaluateMoveToEnemy`
reports exactly `0.6·aggressiveness + 0.3·sensorWeight + (0.2 or −0.1 by
health ratio > 0.7) + (1 − (distance/detectionRange)·0.2)`, targeting that
enemy. -/
theorem evaluateMoveToEnemy_single_score (ctx : AIContext) (enemy : AIContextEnemy)
    (henemies : ctx.enemies = [enemy])
    (hfar : ctx.unit.attackRange < (manhattanDistance ctx.position enemy.position : ℚ))
    (hnear : (manhattanDistance ctx.position enemy.position : ℚ) ≤ ctx.unit.detectionRange)
    (hpos : 0 < pursuitScore ctx.unit (manhattanDistance ctx.position enemy.position)) :
    (evaluateMoveToEnemy ctx).score =
      ctx.unit.aggressiveness * 0.6 + ctx.unit.sensorWeight * 0.3 +
      (if ctx.unit.health / ctx.unit.maxHealth > 0.7 then 0.2 else -0.1) +
      (1 - (manhattanDistance ctx.position enemy.position : ℚ) /
        ctx.unit.detectionRange * 0.2) ∧
    (evaluateMoveToEnemy ctx).targetPosition = some enemy.position := by
  have hcond1 : ctx.unit.attackRange < ((manhattanDistance ctx.position enemy.position : ℕ) : ℚ) ∧
      ((manhattanDistance ctx.position enemy.position : ℕ) : ℚ) ≤ ctx.unit.detectionRange :=
    ⟨hfar, hnear⟩
  have hcond2 : ((0 : ℚ), (none : Option UnitData), (none : Option GridPosition)).1 <
      pursuitScore ctx.unit (manhattanDistance ctx.position enemy.position) := hpos
  have heval : evaluateMoveToEnemy ctx =
      { action := .MOVE_TO_ENEMY,
        score := pursuitScore ctx.unit (manhattanDistance ctx.position enemy.position),
        targetPosition := some enemy.position, targetUnit := some enemy.unitData } := by
    unfold evaluateMoveToEnemy
    rw [henemies]
    rw [if_neg (show ¬([enemy] : List AIContextEnemy) = [] by simp)]
    simp only [List.foldl_cons, List.foldl_nil]
    rw [if_pos hcond1, if_pos hcond2]
  rw [heval]
  exact ⟨rfl, rfl⟩

/-- Witness for C4 amended: the concrete single-enemy context at distance
4 with positive score 31/20. -/
theorem evaluateMoveToEnemy_single_score_witness :
    (evaluateMoveToEnemy pursuitContext).score =
      sampleInfantry.aggressiveness * 0.6 + sampleInfantry.sensorWeight * 0.3 +
      (if sampleInfantry.health / sampleInfantry.maxHealth > 0.7 then 0.2 else -0.1) +
      (1 - (manhattanDistance (⟨0, 0⟩ : GridPosition) (⟨0, 4⟩ : GridPosition) : ℚ) /
        sampleInfantry.detectionRange * 0.2) ∧
    (evaluateMoveToEnemy pursuitContext).targetPosition = some ⟨0, 4⟩ :=
  evaluateMoveToEnemy_single_score pursuitContext
    { unitData := pursuitEnemyUnit, position := ⟨0, 4⟩ }
    rfl (by norm_num [pursuitContext, sampleInfantry, manhattanDistance])
    (by norm_num [pursuitContext, sampleInfantry, manhattanDistance])
    (by norm_num [pursuitContext, pursuitScore, sampleInfantry, manhattanDistance])

/-! ## Behavior tree (src/services/BehaviorTree.ts) -/

inductive NodeState
  | SUCCESS
  | FAILURE
  | RUNNING
deriving DecidableEq

/-- The captured state of a `CheckEnemyByDiplomacyNode`. -/
structure CheckEnemyByDiplomacyNode where
  unit : UnitData
  position : GridPosition
  units : List AIContextEnemy
  relationshipStatus : RelationshipStatus
  range : ℚ

/-- The node constructor: a non-positive `range` argument (the default is
−1) means the asking unit's detection range. -/
def mkCheckEnemyByDiplomacyNode (unit : UnitData) (position : GridPosition)
    (units : List AIContextEnemy) (relationshipStatus : RelationshipStatus) (range : ℚ) :
    CheckEnemyByDiplomacyNode :=
  { unit := unit, position := position, units := units,
    relationshipStatus := relationshipStatus,
    range := if range > 0 then range else unit.detectionRange }

/-- The filter predicate inside `CheckEnemyByDiplomacyNode.execute`: when
the configured tier is WAR or HOSTILE, units of the asking unit's own
faction are rejected (the early `return false`); any surviving unit passes
iff it lies within range. The node never consults a diplomacy ledger. -/
def checkEnemyPred (node : CheckEnemyByDiplomacyNode) (other : AIContextEnemy) : Bool :=
  if (node.relationshipStatus = RelationshipStatus.WAR ∨
      node.relationshipStatus = RelationshipStatus.HOSTILE) ∧
      other.unitData.faction = node.unit.faction then false
  else decide ((manhattanDistance node.position other.position : ℚ) ≤ node.range)

/-- `CheckEnemyByDiplomacyNode.execute`: SUCCESS iff the filtered list is
nonempty. -/
def checkEnemyExecute (node : CheckEnemyByDiplomacyNode) : NodeState :=
  let hostileUnits := node.units.filter (checkEnemyPred node)
  if 0 < hostileUnits.length then .SUCCESS else .FAILURE

/-- Modelled from the spec (claim C9): the claimed detection condition.
Under either reading of the claim a detected unit must at least belong to a
different faction than the asking unit (the war/hostile tier requires a
hostile foreign faction; the no-filter fallback requires "simply a
different faction"). -/
def claimedEnemyDetected (node : CheckEnemyByDiplomacyNode) : Prop :=
  ∃ other ∈ node.units,
    (manhattanDistance node.position other.position : ℚ) ≤ node.range ∧
    other.unitData.faction ≠ node.unit.faction

/-- The same-faction unit listed in the C9 node. -/
def allyEntry : AIContextEnemy :=
  { unitData := { sampleInfantry with id := "ally" }, position := ⟨0, 1⟩ }

/-- The node used to settle C9: tier NEUTRAL, default range (detection
range 5), and a single same-faction unit at distance 1. -/
def neutralTierNode : CheckEnemyByDiplomacyNode :=
  mkCheckEnemyByDiplomacyNode sampleInfantry ⟨0, 0⟩ [allyEntry]
    RelationshipStatus.NEUTRAL (-1)

/-- Counterexample to C9 as stated: with a NEUTRAL tier filter the node
reports SUCCESS for a lone same-faction unit in range, although no unit of
a different faction is present. -/
theorem checkEnemyExecute_counterexample :
    checkEnemyExecute neutralTierNode = NodeState.SUCCESS ∧
    ¬ claimedEnemyDetected neutralTierNode := by
  constructor
  · have hp : checkEnemyPred neutralTierNode allyEntry = true := by
      unfold checkEnemyPred neutralTierNode mkCheckEnemyByDiplomacyNode
      rw [if_neg (by simp [allyEntry, sampleInfantry])]
      rw [decide_eq_true_eq]
      norm_num [allyEntry, sampleInfantry, manhattanDistance]
    show (if 0 < ((neutralTierNode.units).filter (checkEnemyPred neutralTierNode)).length
        then NodeState.SUCCESS else NodeState.FAILURE) = NodeState.SUCCESS
    have hu : neutralTierNode.units = [allyEntry] := rfl
    rw [hu, List.filter_cons, hp]
    simp
  · intro h
    obtain ⟨other, hmem, _, hne⟩ := h
    have hu : neutralTierNode.units = [allyEntry] := rfl
    rw [hu, List.mem_singleton] at hmem
    subst hmem
    exact hne rfl

/-- C9 amended: `execute` returns SUCCESS iff some unit within the
effective range (the given range when positive, else the asking unit's
detection range) belongs to a different faction when the configured tier is
war or hostile — with no faction condition at all for any other tier. -/
theorem checkEnemyExecute_success_iff (unit : UnitData) (position : GridPosition)
    (units : List AIContextEnemy) (status : RelationshipStatus) (range : ℚ) :
    (mkCheckEnemyByDiplomacyNode unit position units status range).range =
      (if range > 0 then range else unit.detectionRange) ∧
    (checkEnemyExecute (mkCheckEnemyByDiplomacyNode unit position units status range) =
        NodeState.SUCCESS ↔
      ∃ other ∈ units,
        (manhattanDistance position other.position : ℚ) ≤
          (if range > 0 then range else unit.detectionRange) ∧
        ((status = RelationshipStatus.WAR ∨ status = RelationshipStatus.HOSTILE) →
          other.unitData.faction ≠ unit.faction)) := by
  refine ⟨rfl, ?_⟩
  unfold checkEnemyExecute
  show (if 0 < (units.filter
      (checkEnemyPred (mkCheckEnemyByDiplomacyNode unit position units status range))).length
    then NodeState.SUCCESS else NodeState.FAILURE) = NodeState.SUCCESS ↔ _
  have hpred : ∀ other : AIContextEnemy,
      checkEnemyPred (mkCheckEnemyByDiplomacyNode unit position units status range) other =
        true ↔
      ((manhattanDistance position other.position : ℚ) ≤
          (if range > 0 then range else unit.detectionRange) ∧
        ((status = RelationshipStatus.WAR ∨ status = RelationshipStatus.HOSTILE) →
          other.unitData.faction ≠ unit.faction)) := by
    intro other
    unfold checkEnemyPred mkCheckEnemyByDiplomacyNode
    by_cases hcase : (status = RelationshipStatus.WAR ∨
        status = RelationshipStatus.HOSTILE) ∧ other.unitData.faction = unit.faction
    · rw [if_pos hcase]
      simp only [Bool.false_eq_true, false_iff]
      rintro ⟨-, hne⟩
      exact hne hcase.1 hcase.2
    · rw [if_neg hcase, decide_eq_true_eq]
      constructor
      · intro hd
        refine ⟨hd, fun hwar heq => hcase ⟨hwar, heq⟩⟩
      · exact fun h => h.1
  constructor
  · intro hs
    by_cases hlen : 0 < (units.filter
        (checkEnemyPred (mkCheckEnemyByDiplomacyNode unit position units status range))).length
    · have hne : units.filter
          (checkEnemyPred (mkCheckEnemyByDiplomacyNode unit position units status range)) ≠ [] :=
        List.length_pos.mp hlen
      obtain ⟨other, hmem⟩ := List.exists_mem_of_ne_nil _ hne
      have h2 := List.mem_filter.mp hmem
      exact ⟨other, h2.1, (hpred other).mp h2.2⟩
    · rw [if_neg hlen] at hs
      exact absurd hs (by decide)
  · rintro ⟨other, hmem, hp⟩
    have : other ∈ units.filter
        (checkEnemyPred (mkCheckEnemyByDiplomacyNode unit position units status range)) :=
      List.mem_filter.mpr ⟨hmem, (hpred other).mpr hp⟩
    have hlen : 0 < (units.filter
        (checkEnemyPred (mkCheckEnemyByDiplomacyNode unit position units status range))).length :=
      List.length_pos.mpr (fun hnil => by simp [hnil] at this)
    rw [if_pos hlen]

/-! ## Pathfinding (src/services/PathFinder.ts) -/

/-- Whether the tile at `q` admits the movement type: `isWalkable` for
GROUND (the source skips `GROUND ∧ ¬walkable`), `isFlyable` for AIR. -/
def traversable (m : GameMap) (mt : MovementType) (q : GridPosition) : Bool :=
  match mt with
  | .GROUND => (m.tiles q.y q.x).isWalkable
  | .AIR => (m.tiles q.y q.x).isFlyable

/-- The cost of stepping onto `q`: 1 for air movement, otherwise the
destination tile's terrain movement cost. -/
def stepCost (m : GameMap) (mt : MovementType) (q : GridPosition) : ℕ :=
  match mt with
  | .AIR => 1
  | .GROUND => (m.tiles q.y q.x).movementCost

/-- One admissible step of the search graph both loops explore: `q` is an
in-bounds 4-neighbor of `p` whose tile admits the movement type. -/
def validStep (m : GameMap) (mt : MovementType) (p q : GridPosition) : Prop :=
  q ∈ getNeighbors p m.width m.height ∧ traversable m mt q = true

/-- Reachability at a cost: the accumulated step cost of some admissible
walk from `s`. -/
inductive ReachCost (m : GameMap) (mt : MovementType) (s : GridPosition) :
    GridPosition → ℕ → Prop
  | refl : ReachCost m mt s s 0
  | step {p q : GridPosition} {c : ℕ} (hreach : ReachCost m mt s p c)
      (hstep : validStep m mt p q) : ReachCost m mt s q (c + stepCost m mt q)

/-- Every admissible step costs at least 1. This holds of the repository's
terrain table, whose movement costs are 1 (plains), 2 (forest), 3
(mountain) and 99 (water), and trivially of air movement. -/
def CostsPositive (m : GameMap) (mt : MovementType) : Prop :=
  ∀ q : GridPosition, inBoundsPos m.width m.height q → traversable m mt q = true →
    1 ≤ stepCost m mt q

theorem mem_getNeighbors {p q : GridPosition} {w h : ℕ} (hq : q ∈ getNeighbors p w h) :
    inBoundsPos w h q ∧ manhattanDistance p q = 1 := by
  unfold getNeighbors at hq
  simp only [List.mem_append] at hq
  rcases hq with ((h1 | h1) | h1) | h1 <;>
  · split at h1
    · simp only [List.mem_singleton] at h1
      subst h1
      refine ⟨by assumption, ?_⟩
      unfold manhattanDistance
      dsimp only
      omega
    · simp at h1

theorem validStep_ne {m : GameMap} {mt : MovementType} {p q : GridPosition}
    (hs : validStep m mt p q) : q ≠ p := by
  obtain ⟨hmem, -⟩ := hs
  obtain ⟨-, hdist⟩ := mem_getNeighbors hmem
  intro hqp
  subst hqp
  simp [manhattanDistance] at hdist

theorem validStep_inBounds {m : GameMap} {mt : MovementType} {p q : GridPosition}
    (hs : validStep m mt p q) : inBoundsPos m.width m.height q :=
  (mem_getNeighbors hs.1).1

/-- Per-step consistency of the Manhattan heuristic: along an admissible
step the heuristic to any goal drops by at most the step cost (which is at
least 1 when `CostsPositive`). -/
theorem manhattan_consistent {m : GameMap} {mt : MovementType} {p q : GridPosition}
    (hcost : CostsPositive m mt) (hs : validStep m mt p q) (goal : GridPosition) :
    manhattanDistance p goal ≤ stepCost m mt q + manhattanDistance q goal := by
  have h1 : 1 ≤ stepCost m mt q := hcost q (validStep_inBounds hs) hs.2
  have hd : manhattanDistance p q = 1 := (mem_getNeighbors hs.1).2
  unfold manhattanDistance at hd ⊢
  omega

/-- The heuristic telescoped along a walk: `H a ≤ cost + H b`. -/
theorem manhattan_consistent_path {m : GameMap} {mt : MovementType} {a b : GridPosition}
    {r : ℕ} (hcost : CostsPositive m mt) (hr : ReachCost m mt a b r) (goal : GridPosition) :
    manhattanDistance a goal ≤ r + manhattanDistance b goal := by
  induction hr with
  | refl => simp
  | step hreach hstep ih =>
    have := manhattan_consistent hcost hstep goal
    omega

/-- Positions reachable from an in-bounds-or-start position stay in bounds
or at the start. -/
theorem reachCost_dom {m : GameMap} {mt : MovementType} {s p : GridPosition} {c : ℕ}
    (hr : ReachCost m mt s p c) : p = s ∨ inBoundsPos m.width m.height p := by
  induction hr with
  | refl => exact Or.inl rfl
  | step hreach hstep ih => exact Or.inr (validStep_inBounds hstep)

/-! ### findMovementRange (breadth-first reachable set) -/

/-- One neighbor relaxation of the `findMovementRange` loop body.
`reachableTiles` is the cost map (the `Map` keyed by position string),
`queue` the pending worklist; the non-null assertion
`reachableTiles.get(posToKey(pos))!` is `getD 0`, safe because queued
positions are always recorded (proved below). -/
def rangeRelax (m : GameMap) (mt : MovementType) (movementPoints : ℕ) (pos : GridPosition)
    (acc : (GridPosition → Option ℕ) × List (GridPosition × ℕ)) (neighborPos : GridPosition) :
    (GridPosition → Option ℕ) × List (GridPosition × ℕ) :=
  if traversable m mt neighborPos = false then acc
  else
    let movementCost := stepCost m mt neighborPos
    let costToEnter := (acc.1 pos).getD 0 + movementCost
    let notRecordedOrBetter : Bool :=
      match acc.1 neighborPos with
      | none => true
      | some previous => decide (costToEnter < previous)
    if notRecordedOrBetter = true ∧ costToEnter ≤ movementPoints then
      let reachableTiles1 : GridPosition → Option ℕ :=
        fun key => if key = neighborPos then some costToEnter else acc.1 key
      let newRemainingPoints := movementPoints - costToEnter
      if 0 < newRemainingPoints then
        (reachableTiles1, acc.2 ++ [(neighborPos, newRemainingPoints)])
      else (reachableTiles1, acc.2)
    else acc

/-- The while loop of `findMovementRange`, with explicit fuel; the fuel
passed by `findMovementRange` is proved sufficient below, so running out
of fuel (first arm) never happens from the initial state. -/
def rangeLoop (m : GameMap) (mt : MovementType) (movementPoints : ℕ) :
    ℕ → (GridPosition → Option ℕ) → List (GridPosition × ℕ) → (GridPosition → Option ℕ)
  | 0, reachableTiles, _ => reachableTiles
  | _ + 1, reachableTiles, [] => reachableTiles
  | fuel + 1, reachableTiles, (pos, _) :: queue =>
    let next := (getNeighbors pos m.width m.height).foldl
      (rangeRelax m mt movementPoints pos) (reachableTiles, queue)
    rangeLoop m mt movementPoints fuel next.1 next.2

/-- `findMovementRange`: the map from reachable position to recorded cost,
seeded with the start at cost 0 and the start enqueued with the full
budget. -/
def findMovementRange (m : GameMap) (position : GridPosition) (mt : MovementType)
    (movementPoints : ℕ) : GridPosition → Option ℕ :=
  rangeLoop m mt movementPoints
    (5 * ((m.width * m.height + 1) * (movementPoints + 2)) + 2)
    (fun key => if key = position then some 0 else none)
    [(position, movementPoints)]

/-! ### findPath (A* search) -/

/-- A node of the A* search. The `parent` chain of the source is
represented by the accumulated path from the start (inclusive), which is
exactly what `reconstructPath` extracts from the chain. -/
structure PathNode where
  position : GridPosition
  gCost : ℕ
  hCost : ℕ
  fCost : ℕ
  path : List GridPosition
deriving DecidableEq

/-- The `Path` result interface of PathFinder.ts (named `PathResult` here
to avoid clashing with Mathlib's `Path`). -/
structure PathResult where
  path : List GridPosition
  cost : ℕ
deriving DecidableEq

/-- The in-place update of an already-open node: replace the first open
node at the given position with the improved gCost, the recomputed fCost
(from its stored hCost) and the new parent path. -/
def updateOpenNode : List PathNode → GridPosition → ℕ → List GridPosition → List PathNode
  | [], _, _, _ => []
  | node :: rest, q, g, pa =>
    if node.position = q then
      { node with gCost := g, fCost := g + node.hCost, path := pa } :: rest
    else node :: updateOpenNode rest q g pa

/-- Process one neighbor inside the A* loop: skip non-traversable or
closed destinations, apply the optional movement-point cap, then insert a
new open node or improve an existing one. The closed set stores the node's
gCost alongside its position (the source stores the whole node; only the
key is ever read back). -/
def astarRelax (m : GameMap) (mt : MovementType) (endPos : GridPosition)
    (maxMovementPoints : Option ℕ) (closedSet : List (GridPosition × ℕ))
    (currentNode : PathNode) (openSet : List PathNode) (neighborPos : GridPosition) :
    List PathNode :=
  if traversable m mt neighborPos = false ∨ ∃ e ∈ closedSet, e.1 = neighborPos then openSet
  else
    let movementCost := stepCost m mt neighborPos
    let gCost := currentNode.gCost + movementCost
    if (match maxMovementPoints with
        | some maxPoints => decide (maxPoints < gCost)
        | none => false) = true then openSet
    else
      match openSet.find? (fun node => decide (node.position = neighborPos)) with
      | none =>
        let hCost := manhattanDistance neighborPos endPos
        let neighborNode : PathNode :=
          { position := neighborPos, gCost := gCost, hCost := hCost,
            fCost := gCost + hCost, path := currentNode.path ++ [neighborPos] }
        openSet ++ [neighborNode]
      | some existingOpenNode =>
        if gCost < existingOpenNode.gCost then
          updateOpenNode openSet neighborPos gCost (currentNode.path ++ [neighborPos])
        else openSet

/-- The while loop of `findPath`, with explicit fuel (`findPath` passes
width·height + 2, proved sufficient below). Each iteration sorts the open
set by fCost — the source's stable `Array.sort` is modelled by insertion
sort; the cost returned is independent of how ties are ordered — pops the
head, returns on the goal, and otherwise closes the node and relaxes its
neighbors. -/
def astarLoop (m : GameMap) (mt : MovementType) (endPos : GridPosition)
    (maxMovementPoints : Option ℕ) :
    ℕ → List PathNode → List (GridPosition × ℕ) → Option PathResult
  | 0, _, _ => none
  | fuel + 1, openSet, closedSet =>
    match openSet.insertionSort (fun a b => a.fCost ≤ b.fCost) with
    | [] => none
    | currentNode :: rest =>
      if currentNode.position = endPos then
        some { path := currentNode.path, cost := currentNode.gCost }
      else
        let closedSet1 := (currentNode.position, currentNode.gCost) :: closedSet
        let openSet1 := (getNeighbors currentNode.position m.width m.height).foldl
          (astarRelax m mt endPos maxMovementPoints closedSet1 currentNode) rest
        astarLoop m mt endPos maxMovementPoints fuel openSet1 closedSet1

/-- `findPath`: equal endpoints return the empty path at cost 0; otherwise
run the A* loop from the start node (gCost 0, Manhattan heuristic). -/
def findPath (m : GameMap) (startPos endPos : GridPosition) (mt : MovementType)
    (maxMovementPoints : Option ℕ) : Option PathResult :=
  if startPos.x = endPos.x ∧ startPos.y = endPos.y then some { path := [], cost := 0 }
  else
    let startNode : PathNode :=
      { position := startPos, gCost := 0, hCost := manhattanDistance startPos endPos,
        fCost := 0 + manhattanDistance startPos endPos, path := [startPos] }
    astarLoop m mt endPos maxMovementPoints (m.width * m.height + 2) [startNode] []

/-! ### Correctness of findMovementRange -/

theorem foldl_inv {α β : Type} (f : β → α → β) (l : List α) (b : β) (P : β → Prop)
    (hb : P b) (hf : ∀ acc x, x ∈ l → P acc → P (f acc x)) : P (l.foldl f b) := by
  induction l generalizing b with
  | nil => exact hb
  | cons x xs ih =>
    exact ih (f b x) (hf b x (by simp) hb) (fun acc y hy h => hf acc y (by simp [hy]) h)

theorem foldl_inv_each {α β : Type} (f : β → α → β) (l : List α) (b : β)
    (P : β → Prop) (Q : α → β → Prop) (hb : P b)
    (hf : ∀ acc x, x ∈ l → P acc → P (f acc x))
    (hstep : ∀ acc x, x ∈ l → P acc → Q x (f acc x))
    (hpres : ∀ acc x y, y ∈ l → Q x acc → Q x (f acc y)) :
    P (l.foldl f b) ∧ ∀ x ∈ l, Q x (l.foldl f b) := by
  induction l generalizing b with
  | nil => exact ⟨hb, by simp⟩
  | cons x xs ih =>
    obtain ⟨hP, hQ⟩ := ih (f b x) (hf b x (by simp) hb)
      (fun acc y hy h => hf acc y (by simp [hy]) h)
      (fun acc y hy h => hstep acc y (by simp [hy]) h)
      (fun acc y z hz h => hpres acc y z (by simp [hz]) h)
    refine ⟨hP, fun y hy => ?_⟩
    rcases List.mem_cons.mp hy with rfl | hy2
    · exact foldl_inv f xs (f b y) (Q y) (hstep b y (by simp) hb)
        (fun acc z hz h => hpres acc y z (by simp [hz]) h)
    · exact hQ y hy2

/-- Full case analysis of one `rangeRelax` step: either the accumulator is
unchanged, or the neighbor's entry is set to `cost-of-pos + step cost`
(strictly improving, within budget) and the neighbor is enqueued exactly
when strictly below budget. -/
theorem rangeRelax_cases (m : GameMap) (mt : MovementType) (b : ℕ) (pos : GridPosition)
    (acc : (GridPosition → Option ℕ) × List (GridPosition × ℕ)) (q : GridPosition) :
    rangeRelax m mt b pos acc q = acc ∨
    (traversable m mt q = true ∧
      (∀ prev, acc.1 q = some prev → (acc.1 pos).getD 0 + stepCost m mt q < prev) ∧
      (acc.1 pos).getD 0 + stepCost m mt q ≤ b ∧
      (rangeRelax m mt b pos acc q).1 = (fun key =>
        if key = q then some ((acc.1 pos).getD 0 + stepCost m mt q) else acc.1 key) ∧
      (((acc.1 pos).getD 0 + stepCost m mt q = b ∧ (rangeRelax m mt b pos acc q).2 = acc.2) ∨
        ((acc.1 pos).getD 0 + stepCost m mt q < b ∧
          (rangeRelax m mt b pos acc q).2 =
            acc.2 ++ [(q, b - ((acc.1 pos).getD 0 + stepCost m mt q))]))) := by
  by_cases h1 : traversable m mt q = false
  · left
    simp only [rangeRelax, if_pos h1]
  · have htrav : traversable m mt q = true := by
      revert h1; cases traversable m mt q <;> simp
    by_cases h2 : ((match acc.1 q with
        | none => true
        | some previous => decide ((acc.1 pos).getD 0 + stepCost m mt q < previous)) = true ∧
        (acc.1 pos).getD 0 + stepCost m mt q ≤ b)
    · right
      have hbetter : ∀ prev, acc.1 q = some prev →
          (acc.1 pos).getD 0 + stepCost m mt q < prev := by
        intro prev hprev
        have hbool := h2.1
        rw [hprev] at hbool
        simpa using hbool
      refine ⟨htrav, hbetter, h2.2, ?_, ?_⟩
      · simp only [rangeRelax, if_neg h1, if_pos h2]
        by_cases h3 : 0 < b - ((acc.1 pos).getD 0 + stepCost m mt q)
        · rw [if_pos h3]
        · rw [if_neg h3]
      · by_cases h3 : 0 < b - ((acc.1 pos).getD 0 + stepCost m mt q)
        · right
          refine ⟨by omega, ?_⟩
          simp only [rangeRelax, if_neg h1, if_pos h2, if_pos h3]
        · left
          have hle := h2.2
          refine ⟨by omega, ?_⟩
          simp only [rangeRelax, if_neg h1, if_pos h2, if_neg h3]
    · left
      simp only [rangeRelax, if_neg h1, if_neg h2]

/-- Recorded costs never worsen across a `rangeRelax` step: a recorded
entry below a bound stays recorded below that bound. -/
theorem rangeRelax_mono (m : GameMap) (mt : MovementType) (b : ℕ) (pos : GridPosition)
    (acc : (GridPosition → Option ℕ) × List (GridPosition × ℕ)) (q k : GridPosition)
    (ck bound : ℕ) (hk : acc.1 k = some ck) (hb : ck ≤ bound) :
    ∃ ck2, (rangeRelax m mt b pos acc q).1 k = some ck2 ∧ ck2 ≤ bound := by
  rcases rangeRelax_cases m mt b pos acc q with heq | ⟨-, hbetter, -, hmap, -⟩
  · exact ⟨ck, by rw [heq]; exact hk, hb⟩
  · rw [hmap]
    by_cases hkq : k = q
    · subst hkq
      exact ⟨_, by simp, le_of_lt (lt_of_lt_of_le (hbetter ck hk) hb)⟩
    · exact ⟨ck, by simp [hkq, hk], hb⟩

/-- The queue never loses entries across a `rangeRelax` step. -/
theorem rangeRelax_queue_mono (m : GameMap) (mt : MovementType) (b : ℕ) (pos : GridPosition)
    (acc : (GridPosition → Option ℕ) × List (GridPosition × ℕ)) (q : GridPosition)
    (e : GridPosition × ℕ) (he : e ∈ acc.2) : e ∈ (rangeRelax m mt b pos acc q).2 := by
  rcases rangeRelax_cases m mt b pos acc q with heq | ⟨-, -, -, -, hqueue⟩
  · rw [heq]; exact he
  · rcases hqueue with ⟨-, hq2⟩ | ⟨-, hq2⟩ <;> rw [hq2] <;> simp [he]

/-- After its own `rangeRelax` step, a traversable neighbor within budget
from `pos` is recorded at no more than `cost-of-pos + step cost`. -/
theorem rangeRelax_relaxes (m : GameMap) (mt : MovementType) (b : ℕ) (pos : GridPosition)
    (acc : (GridPosition → Option ℕ) × List (GridPosition × ℕ)) (q : GridPosition)
    (htrav : traversable m mt q = true)
    (hble : (acc.1 pos).getD 0 + stepCost m mt q ≤ b) :
    ∃ cq, (rangeRelax m mt b pos acc q).1 q = some cq ∧
      cq ≤ (acc.1 pos).getD 0 + stepCost m mt q := by
  rcases rangeRelax_cases m mt b pos acc q with heq | ⟨-, -, -, hmap, -⟩
  · -- unchanged: the entry was already at least as good, or the guard failed
    by_cases hrec : ∃ prev, acc.1 q = some prev ∧ prev ≤ (acc.1 pos).getD 0 + stepCost m mt q
    · obtain ⟨prev, hprev, hle⟩ := hrec
      exact ⟨prev, by rw [heq]; exact hprev, hle⟩
    · exfalso
      push_neg at hrec
      have hcond : ((match acc.1 q with
          | none => true
          | some previous => decide ((acc.1 pos).getD 0 + stepCost m mt q < previous)) = true ∧
          (acc.1 pos).getD 0 + stepCost m mt q ≤ b) := by
        refine ⟨?_, hble⟩
        cases hq : acc.1 q with
        | none => rfl
        | some prev =>
          have := hrec prev hq
          simp only [decide_eq_true_eq]
          omega
      have h1 : ¬ traversable m mt q = false := by rw [htrav]; simp
      have hval : (rangeRelax m mt b pos acc q).1 q =
          some ((acc.1 pos).getD 0 + stepCost m mt q) := by
        simp only [rangeRelax, if_neg h1, if_pos hcond]
        by_cases h3 : 0 < b - ((acc.1 pos).getD 0 + stepCost m mt q)
        · rw [if_pos h3]
          simp
        · rw [if_neg h3]
          simp
      rw [heq] at hval
      have := hrec _ hval
      omega
  · rw [hmap]
    exact ⟨_, by simp, le_refl _⟩

/-- The loop invariant of `findMovementRange`, also maintained across the
neighbor fold of one dequeued position `pos` (recorded at cost `cpos`),
whose own relaxation obligation is suspended until the fold completes. -/
structure RangeMid (m : GameMap) (mt : MovementType) (s : GridPosition) (budget : ℕ)
    (pos : GridPosition) (cpos : ℕ)
    (st : (GridPosition → Option ℕ) × List (GridPosition × ℕ)) : Prop where
  sound : ∀ p c, st.1 p = some c → ReachCost m mt s p c ∧ c ≤ budget
  start : st.1 s = some 0
  dom : ∀ p c, st.1 p = some c → p = s ∨ inBoundsPos m.width m.height p
  queued : ∀ p r, (p, r) ∈ st.2 → ∃ c, st.1 p = some c
  posrec : st.1 pos = some cpos
  relax : ∀ p c, st.1 p = some c → p ≠ pos →
    (∃ r, (p, r) ∈ st.2) ∨
    ∀ q, validStep m mt p q → c + stepCost m mt q ≤ budget →
      ∃ cq, st.1 q = some cq ∧ cq ≤ c + stepCost m mt q

theorem rangeRelax_preserves_mid {m : GameMap} {mt : MovementType} {s : GridPosition}
    {budget : ℕ} {pos : GridPosition} {cpos : ℕ} (hcost : CostsPositive m mt)
    (acc : (GridPosition → Option ℕ) × List (GridPosition × ℕ)) (q : GridPosition)
    (hq : q ∈ getNeighbors pos m.width m.height)
    (hmid : RangeMid m mt s budget pos cpos acc) :
    RangeMid m mt s budget pos cpos (rangeRelax m mt budget pos acc q) := by
  rcases rangeRelax_cases m mt budget pos acc q with heq | hupd
  · rw [heq]; exact hmid
  · obtain ⟨htrav, hbetter, hble, hmap, hqueue⟩ := hupd
    have hqpos : q ≠ pos := by
      intro hqp
      have := (mem_getNeighbors hq).2
      subst hqp
      simp [manhattanDistance] at this
    have hqbounds : inBoundsPos m.width m.height q := (mem_getNeighbors hq).1
    have hvstep : validStep m mt pos q := ⟨hq, htrav⟩
    have hqs : q ≠ s := by
      intro hqs
      have := hbetter 0 (by rw [hqs]; exact hmid.start)
      omega
    have hgd : (acc.1 pos).getD 0 = cpos := by rw [hmid.posrec]; rfl
    rw [hgd] at hbetter hble hmap hqueue
    have hreachq : ReachCost m mt s q (cpos + stepCost m mt q) :=
      ReachCost.step (hmid.sound pos cpos hmid.posrec).1 hvstep
    -- the updated map
    have hmap1 : ∀ k, (rangeRelax m mt budget pos acc q).1 k =
        if k = q then some (cpos + stepCost m mt q) else acc.1 k := by
      intro k
      rw [hmap]
    refine ⟨?_, ?_, ?_, ?_, ?_, ?_⟩
    · intro p c hp
      rw [hmap1 p] at hp
      by_cases hpq : p = q
      · rw [if_pos hpq] at hp
        obtain rfl : cpos + stepCost m mt q = c := by
          simpa using hp
        subst hpq
        exact ⟨hreachq, hble⟩
      · rw [if_neg hpq] at hp
        exact hmid.sound p c hp
    · rw [hmap1 s, if_neg hqs.symm]
      exact hmid.start
    · intro p c hp
      rw [hmap1 p] at hp
      by_cases hpq : p = q
      · subst hpq
        exact Or.inr hqbounds
      · rw [if_neg hpq] at hp
        exact hmid.dom p c hp
    · intro p r hpr
      rw [hmap1 p]
      by_cases hpq : p = q
      · rw [if_pos hpq]
        exact ⟨_, rfl⟩
      · rw [if_neg hpq]
        rcases hqueue with ⟨-, hq2⟩ | ⟨-, hq2⟩
        · exact hmid.queued p r (by rw [hq2] at hpr; exact hpr)
        · rw [hq2] at hpr
          rcases List.mem_append.mp hpr with h | h
          · exact hmid.queued p r h
          · simp only [List.mem_singleton, Prod.mk.injEq] at h
            exact absurd h.1 hpq
    · rw [hmap1 pos, if_neg (Ne.symm hqpos)]
      exact hmid.posrec
    · intro p c hp hppos
      rw [hmap1 p] at hp
      by_cases hpq : p = q
      · -- the freshly updated entry: either enqueued or at the exact budget
        rw [if_pos hpq] at hp
        obtain rfl : cpos + stepCost m mt q = c := by simpa using hp
        subst hpq
        rcases hqueue with ⟨hcb, -⟩ | ⟨hlt, hq2⟩
        · right
          intro q2 hstep2 hble2
          have h1 : 1 ≤ stepCost m mt q2 := hcost q2 (validStep_inBounds hstep2) hstep2.2
          omega
        · left
          refine ⟨budget - (cpos + stepCost m mt p), ?_⟩
          rw [hq2]
          simp
      · rw [if_neg hpq] at hp
        rcases hmid.relax p c hp hppos with ⟨r, hr⟩ | hrel
        · left
          refine ⟨r, ?_⟩
          rcases hqueue with ⟨-, hq2⟩ | ⟨-, hq2⟩ <;> rw [hq2] <;> simp [hr]
        · right
          intro q2 hstep2 hble2
          obtain ⟨cq2, hcq2, hle2⟩ := hrel q2 hstep2 hble2
          rw [hmap1 q2]
          by_cases hq2q : q2 = q
          · rw [if_pos hq2q]
            refine ⟨_, rfl, ?_⟩
            subst hq2q
            have := hbetter cq2 hcq2
            omega
          · rw [if_neg hq2q]
            exact ⟨cq2, hcq2, hle2⟩

/-- The between-iterations invariant of the `findMovementRange` loop. -/
structure RangeInvariant (m : GameMap) (mt : MovementType) (s : GridPosition) (budget : ℕ)
    (st : (GridPosition → Option ℕ) × List (GridPosition × ℕ)) : Prop where
  sound : ∀ p c, st.1 p = some c → ReachCost m mt s p c ∧ c ≤ budget
  start : st.1 s = some 0
  dom : ∀ p c, st.1 p = some c → p = s ∨ inBoundsPos m.width m.height p
  queued : ∀ p r, (p, r) ∈ st.2 → ∃ c, st.1 p = some c
  relax : ∀ p c, st.1 p = some c →
    (∃ r, (p, r) ∈ st.2) ∨
    ∀ q, validStep m mt p q → c + stepCost m mt q ≤ budget →
      ∃ cq, st.1 q = some cq ∧ cq ≤ c + stepCost m mt q

/-- One iteration of the loop body (dequeue `pos`, fold `rangeRelax` over
its neighbors) preserves the invariant. -/
theorem rangeIteration {m : GameMap} {mt : MovementType} {s : GridPosition} {budget : ℕ}
    (hcost : CostsPositive m mt) (rec : GridPosition → Option ℕ)
    (queue : List (GridPosition × ℕ)) (pos : GridPosition) (r : ℕ)
    (hinv : RangeInvariant m mt s budget (rec, (pos, r) :: queue)) :
    RangeInvariant m mt s budget
      ((getNeighbors pos m.width m.height).foldl
        (rangeRelax m mt budget pos) (rec, queue)) := by
  obtain ⟨cpos, hcpos⟩ := hinv.queued pos r (by simp)
  have hmid : RangeMid m mt s budget pos cpos (rec, queue) := by
    refine ⟨hinv.sound, hinv.start, hinv.dom, ?_, hcpos, ?_⟩
    · intro p rr hpr
      exact hinv.queued p rr (by simp [hpr])
    · intro p c hp hppos
      rcases hinv.relax p c hp with ⟨r2, hr2⟩ | hrel
      · rcases List.mem_cons.mp hr2 with heq | hmem
        · exact absurd (congrArg Prod.fst heq) hppos
        · exact Or.inl ⟨r2, hmem⟩
      · exact Or.inr hrel
  have hfold := foldl_inv_each (rangeRelax m mt budget pos)
    (getNeighbors pos m.width m.height) (rec, queue)
    (RangeMid m mt s budget pos cpos)
    (fun q st => traversable m mt q = true → cpos + stepCost m mt q ≤ budget →
      ∃ cq, st.1 q = some cq ∧ cq ≤ cpos + stepCost m mt q)
    hmid
    (fun acc x hx h => rangeRelax_preserves_mid hcost acc x hx h)
    (fun acc x hx h => by
      intro htrav hble
      have hgd : (acc.1 pos).getD 0 = cpos := by rw [h.posrec]; rfl
      have := rangeRelax_relaxes m mt budget pos acc x htrav (by rw [hgd]; exact hble)
      rw [hgd] at this
      exact this)
    (fun acc x y hy hQ => by
      intro htrav hble
      obtain ⟨cq, hcq, hle⟩ := hQ htrav hble
      exact rangeRelax_mono m mt budget pos acc y x cq _ hcq hle)
  obtain ⟨hP, hQ⟩ := hfold
  refine ⟨hP.sound, hP.start, hP.dom, hP.queued, ?_⟩
  intro p c hp
  by_cases hppos : p = pos
  · subst hppos
    right
    have hc : c = cpos := by
      rw [hP.posrec] at hp
      simpa using hp.symm
    subst hc
    intro q hstep hble
    exact hQ q hstep.1 hstep.2 hble
  · exact hP.relax p c hp hppos

/-- The finite set of in-bounds grid positions. -/
def gridFinset (m : GameMap) : Finset GridPosition :=
  ((Finset.range m.width) ×ˢ (Finset.range m.height)).image
    (fun ab => ⟨(ab.1 : ℤ), (ab.2 : ℤ)⟩)

theorem mem_gridFinset_of_inBounds {m : GameMap} {p : GridPosition}
    (hp : inBoundsPos m.width m.height p) : p ∈ gridFinset m := by
  obtain ⟨h1, h2, h3, h4⟩ := hp
  refine Finset.mem_image.mpr ⟨(p.x.toNat, p.y.toNat), ?_, ?_⟩
  · rw [Finset.mem_product]
    constructor <;> rw [Finset.mem_range] <;> omega
  · obtain ⟨px, py⟩ := p
    dsimp only at h1 h2 h3 h4 ⊢
    simp only [GridPosition.mk.injEq]
    constructor <;> omega

theorem gridFinset_card (m : GameMap) : (gridFinset m).card ≤ m.width * m.height := by
  calc (gridFinset m).card ≤ ((Finset.range m.width) ×ˢ (Finset.range m.height)).card :=
        Finset.card_image_le
    _ = m.width * m.height := by rw [Finset.card_product, Finset.card_range, Finset.card_range]

/-- The termination potential of one recorded entry: unrecorded positions
carry `budget + 2`, an entry of cost `c ≤ budget` carries `c + 1`; every
improvement strictly decreases it. -/
def potval (budget : ℕ) : Option ℕ → ℕ
  | none => budget + 2
  | some c => c + 1

/-- The total potential of the cost map over the grid (plus the start, in
case it lies out of bounds). -/
def rangePotential (m : GameMap) (s : GridPosition) (budget : ℕ)
    (rec : GridPosition → Option ℕ) : ℕ :=
  (insert s (gridFinset m)).sum (fun p => potval budget (rec p))

/-- The loop measure: each queue entry costs 1, each pending improvement 5
(one dequeue can enqueue at most four neighbors, each paired with a strict
potential drop). -/
def rangeMeasure (m : GameMap) (s : GridPosition) (budget : ℕ)
    (st : (GridPosition → Option ℕ) × List (GridPosition × ℕ)) : ℕ :=
  5 * rangePotential m s budget st.1 + st.2.length

theorem rangePotential_update {m : GameMap} {s : GridPosition} {budget : ℕ}
    (rec : GridPosition → Option ℕ) (q : GridPosition) (c : ℕ)
    (hq : q ∈ insert s (gridFinset m)) (hlt : c + 1 < potval budget (rec q)) :
    rangePotential m s budget (fun key => if key = q then some c else rec key) + 1 ≤
      rangePotential m s budget rec := by
  unfold rangePotential
  rw [← Finset.sum_erase_add _ _ hq, ← Finset.sum_erase_add _ (fun p => potval budget (rec p)) hq]
  have hsame : ∀ p ∈ (insert s (gridFinset m)).erase q,
      potval budget (if p = q then some c else rec p) = potval budget (rec p) := by
    intro p hp
    rw [if_neg (Finset.ne_of_mem_erase hp)]
  rw [Finset.sum_congr rfl hsame]
  have hval : potval budget (if q = q then some c else rec q) = c + 1 := by
    rw [if_pos rfl]; rfl
  rw [hval]
  omega

/-- One `rangeRelax` step never increases the measure, and decreases the
potential when it touches the map. -/
theorem rangeRelax_measure {m : GameMap} {mt : MovementType} {s : GridPosition} {budget : ℕ}
    {pos : GridPosition} (acc : (GridPosition → Option ℕ) × List (GridPosition × ℕ))
    (q : GridPosition) (hq : q ∈ getNeighbors pos m.width m.height) :
    rangeMeasure m s budget (rangeRelax m mt budget pos acc q) ≤
      rangeMeasure m s budget acc := by
  rcases rangeRelax_cases m mt budget pos acc q with heq | hupd
  · rw [heq]
  · obtain ⟨-, hbetter, hble, hmap, hqueue⟩ := hupd
    have hqmem : q ∈ insert s (gridFinset m) :=
      Finset.mem_insert_of_mem (mem_gridFinset_of_inBounds (mem_getNeighbors hq).1)
    have hlt : ((acc.1 pos).getD 0 + stepCost m mt q) + 1 < potval budget (acc.1 q) := by
      cases hrec : acc.1 q with
      | none => simp only [potval]; omega
      | some prev =>
        have := hbetter prev hrec
        simp only [potval]
        omega
    have hpot := rangePotential_update acc.1 q ((acc.1 pos).getD 0 + stepCost m mt q) hqmem hlt
    unfold rangeMeasure
    rw [hmap]
    rcases hqueue with ⟨-, hq2⟩ | ⟨-, hq2⟩ <;> rw [hq2]
    · omega
    · rw [List.length_append]
      simp only [List.length_singleton]
      omega

/-- The whole neighbor fold of one iteration strictly decreases the
measure (it pays for the dequeued entry). -/
theorem rangeIteration_measure {m : GameMap} {mt : MovementType} {s : GridPosition}
    {budget : ℕ} (rec : GridPosition → Option ℕ) (queue : List (GridPosition × ℕ))
    (pos : GridPosition) (r : ℕ) :
    rangeMeasure m s budget
        ((getNeighbors pos m.width m.height).foldl (rangeRelax m mt budget pos) (rec, queue)) <
      rangeMeasure m s budget (rec, (pos, r) :: queue) := by
  have hfold : rangeMeasure m s budget
      ((getNeighbors pos m.width m.height).foldl (rangeRelax m mt budget pos) (rec, queue)) ≤
      rangeMeasure m s budget (rec, queue) := by
    have := foldl_inv (rangeRelax m mt budget pos) (getNeighbors pos m.width m.height)
      (rec, queue)
      (fun st => rangeMeasure m s budget st ≤ rangeMeasure m s budget (rec, queue))
      (le_refl _)
      (fun acc x hx h => le_trans (rangeRelax_measure acc x hx) h)
    exact this
  have : rangeMeasure m s budget (rec, (pos, r) :: queue) =
      rangeMeasure m s budget (rec, queue) + 1 := by
    unfold rangeMeasure
    simp only [List.length_cons]
    omega
  omega

/-- What holds of the final cost map: recorded entries are sound, the start
is at 0, and every in-budget edge out of a recorded entry is relaxed. -/
structure RangeStable (m : GameMap) (mt : MovementType) (s : GridPosition) (budget : ℕ)
    (rec : GridPosition → Option ℕ) : Prop where
  sound : ∀ p c, rec p = some c → ReachCost m mt s p c ∧ c ≤ budget
  start : rec s = some 0
  relax : ∀ p c, rec p = some c → ∀ q, validStep m mt p q →
    c + stepCost m mt q ≤ budget → ∃ cq, rec q = some cq ∧ cq ≤ c + stepCost m mt q

theorem rangeLoop_stable {m : GameMap} {mt : MovementType} {s : GridPosition} {budget : ℕ}
    (hcost : CostsPositive m mt) :
    ∀ (fuel : ℕ) (rec : GridPosition → Option ℕ) (queue : List (GridPosition × ℕ)),
      RangeInvariant m mt s budget (rec, queue) →
      rangeMeasure m s budget (rec, queue) < fuel →
      RangeStable m mt s budget (rangeLoop m mt budget fuel rec queue) := by
  intro fuel
  induction fuel with
  | zero => intro rec queue _ hfuel; omega
  | succ fuel ih =>
    intro rec queue hinv hfuel
    match queue with
    | [] =>
      refine ⟨hinv.sound, hinv.start, ?_⟩
      intro p c hp q hstep hble
      rcases hinv.relax p c hp with ⟨r, hr⟩ | hrel
      · simp at hr
      · exact hrel q hstep hble
    | (pos, r) :: queue =>
      have hnext := rangeIteration hcost rec queue pos r hinv
      have hmeas := @rangeIteration_measure m mt s budget rec queue pos r
      have hm2 : rangeMeasure m s budget
          ((((getNeighbors pos m.width m.height).foldl
              (rangeRelax m mt budget pos) (rec, queue))).1,
           (((getNeighbors pos m.width m.height).foldl
              (rangeRelax m mt budget pos) (rec, queue))).2) < fuel := by
        have heq : ((((getNeighbors pos m.width m.height).foldl
              (rangeRelax m mt budget pos) (rec, queue))).1,
            (((getNeighbors pos m.width m.height).foldl
              (rangeRelax m mt budget pos) (rec, queue))).2) =
            ((getNeighbors pos m.width m.height).foldl
              (rangeRelax m mt budget pos) (rec, queue)) := rfl
        rw [heq]
        omega
      exact ih _ _ hnext hm2

/-- Completeness of a stable map: every position reachable within budget is
recorded at no more than its walk's cost. -/
theorem rangeStable_complete {m : GameMap} {mt : MovementType} {s : GridPosition}
    {budget : ℕ} {rec : GridPosition → Option ℕ}
    (hstable : RangeStable m mt s budget rec) :
    ∀ z c, ReachCost m mt s z c → c ≤ budget → ∃ c2, rec z = some c2 ∧ c2 ≤ c := by
  intro z c hreach
  induction hreach with
  | refl => exact fun _ => ⟨0, hstable.start, le_refl 0⟩
  | step hreach hstep ih =>
    intro hble
    obtain ⟨cp2, hcp2, hle2⟩ := ih (by omega)
    obtain ⟨cq, hcq, hleq⟩ := hstable.relax _ cp2 hcp2 _ hstep (by omega)
    exact ⟨cq, hcq, by omega⟩

theorem findMovementRange_stable {m : GameMap} {mt : MovementType} {s : GridPosition}
    {budget : ℕ} (hcost : CostsPositive m mt) :
    RangeStable m mt s budget (findMovementRange m s mt budget) := by
  apply rangeLoop_stable hcost
  · refine ⟨?_, ?_, ?_, ?_, ?_⟩
    · intro p c hp
      dsimp only at hp
      by_cases hps : p = s
      · rw [if_pos hps] at hp
        obtain rfl : (0 : ℕ) = c := by simpa using hp
        subst hps
        exact ⟨ReachCost.refl, Nat.zero_le budget⟩
      · rw [if_neg hps] at hp
        exact Option.noConfusion hp
    · dsimp only
      rw [if_pos rfl]
    · intro p c hp
      dsimp only at hp
      by_cases hps : p = s
      · exact Or.inl hps
      · rw [if_neg hps] at hp
        exact Option.noConfusion hp
    · intro p r hpr
      dsimp only at hpr ⊢
      simp only [List.mem_singleton, Prod.mk.injEq] at hpr
      rw [if_pos hpr.1]
      exact ⟨0, rfl⟩
    · intro p c hp
      dsimp only at hp ⊢
      by_cases hps : p = s
      · subst hps
        exact Or.inl ⟨budget, by simp⟩
      · rw [if_neg hps] at hp
        exact Option.noConfusion hp
  · -- the fuel exceeds the initial measure
    have hpot : rangePotential m s budget (fun key => if key = s then some 0 else none) ≤
        (m.width * m.height + 1) * (budget + 2) := by
      have hbound : ∀ p ∈ insert s (gridFinset m),
          potval budget (if p = s then some 0 else none) ≤ budget + 2 := by
        intro p _
        by_cases hps : p = s
        · rw [if_pos hps]
          simp only [potval]
          omega
        · rw [if_neg hps]
          exact le_refl _
      have h1 := Finset.sum_le_card_nsmul (insert s (gridFinset m))
        (fun p => potval budget (if p = s then some 0 else none)) (budget + 2) hbound
      have h2 : (insert s (gridFinset m)).card ≤ m.width * m.height + 1 := by
        have := Finset.card_insert_le s (gridFinset m)
        have := gridFinset_card m
        omega
      unfold rangePotential
      calc (insert s (gridFinset m)).sum (fun p => potval budget
            (if p = s then some 0 else none)) ≤
          (insert s (gridFinset m)).card • (budget + 2) := h1
        _ = (insert s (gridFinset m)).card * (budget + 2) := by
              rw [smul_eq_mul]
        _ ≤ (m.width * m.height + 1) * (budget + 2) := Nat.mul_le_mul_right _ h2
    unfold rangeMeasure
    simp only [List.length_singleton]
    omega

/-- The cost `findMovementRange` records for a position is a reachable cost
within budget, and the minimum over all admissible walks. -/
theorem findMovementRange_min {m : GameMap} {mt : MovementType} {s : GridPosition}
    {budget : ℕ} (hcost : CostsPositive m mt) {t : GridPosition} {c : ℕ}
    (h : findMovementRange m s mt budget t = some c) :
    ReachCost m mt s t c ∧ c ≤ budget ∧ ∀ c2, ReachCost m mt s t c2 → c ≤ c2 := by
  have hst := @findMovementRange_stable m mt s budget hcost
  obtain ⟨hr, hb⟩ := hst.sound t c h
  refine ⟨hr, hb, ?_⟩
  intro c2 h2
  by_cases hc2 : c2 ≤ budget
  · obtain ⟨c3, hc3, hle3⟩ := rangeStable_complete hst t c2 h2 hc2
    rw [h] at hc3
    obtain rfl : c3 = c := by simpa using hc3.symm
    omega
  · omega

/-! ### Correctness of findPath -/

theorem updateOpenNode_mem {l : List PathNode} {q : GridPosition} {g : ℕ}
    {pa : List GridPosition} {x : PathNode} (hx : x ∈ updateOpenNode l q g pa) :
    x ∈ l ∨ ∃ n ∈ l, n.position = q ∧
      x = { n with gCost := g, fCost := g + n.hCost, path := pa } := by
  induction l with
  | nil => simp [updateOpenNode] at hx
  | cons node rest ih =>
    unfold updateOpenNode at hx
    by_cases hpos : node.position = q
    · rw [if_pos hpos] at hx
      rcases List.mem_cons.mp hx with rfl | hx2
      · exact Or.inr ⟨node, by simp, hpos, rfl⟩
      · exact Or.inl (by simp [hx2])
    · rw [if_neg hpos] at hx
      rcases List.mem_cons.mp hx with rfl | hx2
      · exact Or.inl (by simp)
      · rcases ih hx2 with h | ⟨n, hn, hnq, hxn⟩
        · exact Or.inl (by simp [h])
        · exact Or.inr ⟨n, by simp [hn], hnq, hxn⟩

theorem updateOpenNode_map_position (l : List PathNode) (q : GridPosition) (g : ℕ)
    (pa : List GridPosition) :
    (updateOpenNode l q g pa).map (fun n => n.position) = l.map (fun n => n.position) := by
  induction l with
  | nil => rfl
  | cons node rest ih =>
    unfold updateOpenNode
    by_cases hpos : node.position = q
    · rw [if_pos hpos]
      rfl
    · rw [if_neg hpos]
      simp [ih]

theorem updateOpenNode_witness {l : List PathNode} (q : GridPosition) (g : ℕ)
    (pa : List GridPosition) (n : PathNode) (hn : n ∈ l) :
    ∃ n2 ∈ updateOpenNode l q g pa, n2.position = n.position ∧
      (n2.gCost = n.gCost ∨ (n.position = q ∧ n2.gCost = g)) := by
  induction l with
  | nil => simp at hn
  | cons node rest ih =>
    unfold updateOpenNode
    by_cases hpos : node.position = q
    · rw [if_pos hpos]
      rcases List.mem_cons.mp hn with rfl | hn2
      · exact ⟨{ n with gCost := g, fCost := g + n.hCost, path := pa }, by simp,
          rfl, Or.inr ⟨hpos, rfl⟩⟩
      · exact ⟨n, by simp [hn2], rfl, Or.inl rfl⟩
    · rw [if_neg hpos]
      rcases List.mem_cons.mp hn with rfl | hn2
      · exact ⟨n, by simp, rfl, Or.inl rfl⟩
      · obtain ⟨n2, hn2m, hn2p, hn2g⟩ := ih hn2
        exact ⟨n2, by simp [hn2m], hn2p, hn2g⟩

theorem updateOpenNode_found {l : List PathNode} {q : GridPosition} (g : ℕ)
    (pa : List GridPosition) (h : ∃ n ∈ l, n.position = q) :
    ∃ n2 ∈ updateOpenNode l q g pa, n2.position = q ∧ n2.gCost = g := by
  induction l with
  | nil => simp at h
  | cons node rest ih =>
    unfold updateOpenNode
    by_cases hpos : node.position = q
    · rw [if_pos hpos]
      exact ⟨{ node with gCost := g, fCost := g + node.hCost, path := pa }, by simp, hpos, rfl⟩
    · rw [if_neg hpos]
      obtain ⟨n, hn, hnq⟩ := h
      rcases List.mem_cons.mp hn with rfl | hn2
      · exact absurd hnq hpos
      · obtain ⟨n2, hn2m, hn2p, hn2g⟩ := ih ⟨n, hn2, hnq⟩
        exact ⟨n2, by simp [hn2m], hn2p, hn2g⟩

/-- The fresh node `astarRelax` pushes for a neighbor not yet open. -/
def astarFreshNode (m : GameMap) (mt : MovementType) (endPos : GridPosition)
    (cur : PathNode) (q : GridPosition) : PathNode :=
  { position := q, gCost := cur.gCost + stepCost m mt q,
    hCost := manhattanDistance q endPos,
    fCost := cur.gCost + stepCost m mt q + manhattanDistance q endPos,
    path := cur.path ++ [q] }

/-- Case analysis of one `astarRelax` step with no movement-point cap:
unchanged, push of a fresh node, or in-place improvement. -/
theorem astarRelax_cases (m : GameMap) (mt : MovementType) (endPos : GridPosition)
    (closed : List (GridPosition × ℕ)) (cur : PathNode) (openSet : List PathNode)
    (q : GridPosition) :
    astarRelax m mt endPos none closed cur openSet q = openSet ∨
    (traversable m mt q = true ∧ (¬∃ e ∈ closed, e.1 = q) ∧
      (((∀ n ∈ openSet, n.position ≠ q) ∧
        astarRelax m mt endPos none closed cur openSet q =
          openSet ++ [astarFreshNode m mt endPos cur q]) ∨
       (∃ ex ∈ openSet, ex.position = q ∧ cur.gCost + stepCost m mt q < ex.gCost ∧
        astarRelax m mt endPos none closed cur openSet q =
          updateOpenNode openSet q (cur.gCost + stepCost m mt q) (cur.path ++ [q])))) := by
  by_cases hskip : traversable m mt q = false ∨ ∃ e ∈ closed, e.1 = q
  · left
    simp only [astarRelax, if_pos hskip]
  · have htrav : traversable m mt q = true := by
      rcases Bool.eq_false_or_eq_true (traversable m mt q) with h | h
      · exact h
      · exact absurd (Or.inl h) hskip
    have hnclosed : ¬∃ e ∈ closed, e.1 = q := fun h => hskip (Or.inr h)
    cases hfind : openSet.find? (fun node => decide (node.position = q)) with
    | none =>
      right
      refine ⟨htrav, hnclosed, Or.inl ⟨?_, ?_⟩⟩
      · intro n hn hnq
        have := List.find?_eq_none.mp hfind n hn
        simp [hnq] at this
      · simp only [astarRelax, if_neg hskip]
        rw [if_neg (by simp)]
        rw [hfind]
        rfl
    | some ex =>
      have hexq : ex.position = q := by
        have := List.find?_some hfind
        simpa using this
      have hexmem : ex ∈ openSet := List.mem_of_find?_eq_some hfind
      by_cases hg : cur.gCost + stepCost m mt q < ex.gCost
      · right
        refine ⟨htrav, hnclosed, Or.inr ⟨ex, hexmem, hexq, hg, ?_⟩⟩
        simp only [astarRelax, if_neg hskip]
        rw [if_neg (by simp)]
        rw [hfind]
        dsimp only
        rw [if_pos hg]
      · left
        simp only [astarRelax, if_neg hskip]
        rw [if_neg (by simp)]
        rw [hfind]
        dsimp only
        rw [if_neg hg]

/-- After its own relaxation step, a traversable neighbor of the popped
node is either closed or open at no more than `cur.gCost + step cost`. -/
theorem astarRelax_relaxes (m : GameMap) (mt : MovementType) (endPos : GridPosition)
    (closed : List (GridPosition × ℕ)) (cur : PathNode) (openSet : List PathNode)
    (q : GridPosition) (htrav : traversable m mt q = true) :
    (∃ e ∈ closed, e.1 = q) ∨
    ∃ n ∈ astarRelax m mt endPos none closed cur openSet q, n.position = q ∧
      n.gCost ≤ cur.gCost + stepCost m mt q := by
  by_cases hclosed : ∃ e ∈ closed, e.1 = q
  · exact Or.inl hclosed
  · right
    have hskip : ¬(traversable m mt q = false ∨ ∃ e ∈ closed, e.1 = q) := by
      rw [htrav]
      simp [hclosed]
    cases hfind : openSet.find? (fun node => decide (node.position = q)) with
    | none =>
      have heq : astarRelax m mt endPos none closed cur openSet q =
          openSet ++ [astarFreshNode m mt endPos cur q] := by
        simp only [astarRelax, if_neg hskip]
        rw [if_neg (by simp)]
        rw [hfind]
        rfl
      rw [heq]
      exact ⟨astarFreshNode m mt endPos cur q, by simp, rfl, le_refl _⟩
    | some ex =>
      have hexq : ex.position = q := by
        have := List.find?_some hfind
        simpa using this
      have hexmem : ex ∈ openSet := List.mem_of_find?_eq_some hfind
      by_cases hg : cur.gCost + stepCost m mt q < ex.gCost
      · have heq : astarRelax m mt endPos none closed cur openSet q =
            updateOpenNode openSet q (cur.gCost + stepCost m mt q) (cur.path ++ [q]) := by
          simp only [astarRelax, if_neg hskip]
          rw [if_neg (by simp)]
          rw [hfind]
          dsimp only
          rw [if_pos hg]
        rw [heq]
        obtain ⟨n2, hn2, hp2, hg2⟩ := updateOpenNode_found
          (cur.gCost + stepCost m mt q) (cur.path ++ [q]) ⟨ex, hexmem, hexq⟩
        exact ⟨n2, hn2, hp2, le_of_eq hg2⟩
      · have heq : astarRelax m mt endPos none closed cur openSet q = openSet := by
          simp only [astarRelax, if_neg hskip]
          rw [if_neg (by simp)]
          rw [hfind]
          dsimp only
          rw [if_neg hg]
        rw [heq]
        exact ⟨ex, hexmem, hexq, by omega⟩

instance : IsTotal PathNode (fun a b => a.fCost ≤ b.fCost) :=
  ⟨fun a b => Nat.le_total a.fCost b.fCost⟩

instance : IsTrans PathNode (fun a b => a.fCost ≤ b.fCost) :=
  ⟨fun _ _ _ hab hbc => Nat.le_trans hab hbc⟩

theorem foldl_inv_each2 {α β : Type} (f : β → α → β) (l : List α) (b : β)
    (P : β → Prop) (Q : α → β → Prop) (hb : P b)
    (hf : ∀ acc x, x ∈ l → P acc → P (f acc x))
    (hstep : ∀ acc x, x ∈ l → P acc → Q x (f acc x))
    (hpres : ∀ acc x y, y ∈ l → P acc → Q x acc → Q x (f acc y)) :
    P (l.foldl f b) ∧ ∀ x ∈ l, Q x (l.foldl f b) := by
  induction l generalizing b with
  | nil => exact ⟨hb, by simp⟩
  | cons x xs ih =>
    obtain ⟨hP, hQ⟩ := ih (f b x) (hf b x (by simp) hb)
      (fun acc y hy h => hf acc y (by simp [hy]) h)
      (fun acc y hy h => hstep acc y (by simp [hy]) h)
      (fun acc y z hz hp h => hpres acc y z (by simp [hz]) hp h)
    refine ⟨hP, fun y hy => ?_⟩
    rcases List.mem_cons.mp hy with rfl | hy2
    · have hrun := foldl_inv f xs (f b y) (fun acc => P acc ∧ Q y acc)
        ⟨hf b y (by simp) hb, hstep b y (by simp) hb⟩
        (fun acc z hz h => ⟨hf acc z (by simp [hz]) h.1,
          hpres acc y z (by simp [hz]) h.1 h.2⟩)
      exact hrun.2
    · exact hQ y hy2

/-- Invariant of the open set relative to a closed set: every open node
carries a genuine reach cost, the Manhattan heuristic and the f = g + h
sum, positions are distinct, and no open position is closed. -/
structure AstarOpen (m : GameMap) (mt : MovementType) (s endPos : GridPosition)
    (closed : List (GridPosition × ℕ)) (openSet : List PathNode) : Prop where
  sound : ∀ n ∈ openSet, ReachCost m mt s n.position n.gCost
  hc : ∀ n ∈ openSet, n.hCost = manhattanDistance n.position endPos
  fc : ∀ n ∈ openSet, n.fCost = n.gCost + n.hCost
  nodup : (openSet.map PathNode.position).Nodup
  notClosed : ∀ n ∈ openSet, ¬∃ e ∈ closed, e.1 = n.position

theorem astarRelax_preserves_open {m : GameMap} {mt : MovementType}
    {s endPos : GridPosition} {closed : List (GridPosition × ℕ)} {cur : PathNode}
    {openSet : List PathNode} {q : GridPosition}
    (hq : q ∈ getNeighbors cur.position m.width m.height)
    (hcur : ReachCost m mt s cur.position cur.gCost)
    (hop : AstarOpen m mt s endPos closed openSet) :
    AstarOpen m mt s endPos closed (astarRelax m mt endPos none closed cur openSet q) := by
  rcases astarRelax_cases m mt endPos closed cur openSet q with
    heq | ⟨htrav, hnclosed, ⟨hfresh, heq⟩ | ⟨ex, hexmem, hexq, hg, heq⟩⟩
  · rw [heq]; exact hop
  · rw [heq]
    have hreachq : ReachCost m mt s q (cur.gCost + stepCost m mt q) :=
      ReachCost.step hcur ⟨hq, htrav⟩
    refine ⟨?_, ?_, ?_, ?_, ?_⟩
    · intro n hn
      rcases List.mem_append.mp hn with hn1 | hn1
      · exact hop.sound n hn1
      · obtain rfl : n = astarFreshNode m mt endPos cur q := by simpa using hn1
        exact hreachq
    · intro n hn
      rcases List.mem_append.mp hn with hn1 | hn1
      · exact hop.hc n hn1
      · obtain rfl : n = astarFreshNode m mt endPos cur q := by simpa using hn1
        rfl
    · intro n hn
      rcases List.mem_append.mp hn with hn1 | hn1
      · exact hop.fc n hn1
      · obtain rfl : n = astarFreshNode m mt endPos cur q := by simpa using hn1
        rfl
    · rw [List.map_append]
      simp only [List.map_cons, List.map_nil]
      rw [List.nodup_append]
      refine ⟨hop.nodup, by simp [astarFreshNode], ?_⟩
      intro p hp hp2
      simp only [astarFreshNode, List.mem_singleton] at hp2
      obtain ⟨n, hn, rfl⟩ := List.mem_map.mp hp
      exact hfresh n hn hp2
    · intro n hn
      rcases List.mem_append.mp hn with hn1 | hn1
      · exact hop.notClosed n hn1
      · obtain rfl : n = astarFreshNode m mt endPos cur q := by simpa using hn1
        exact hnclosed
  · rw [heq]
    have hreachq : ReachCost m mt s q (cur.gCost + stepCost m mt q) :=
      ReachCost.step hcur ⟨hq, htrav⟩
    refine ⟨?_, ?_, ?_, ?_, ?_⟩
    · intro n hn
      rcases updateOpenNode_mem hn with hn1 | ⟨n0, hn0, hn0q, rfl⟩
      · exact hop.sound n hn1
      · dsimp only
        rw [hn0q]
        exact hreachq
    · intro n hn
      rcases updateOpenNode_mem hn with hn1 | ⟨n0, hn0, hn0q, rfl⟩
      · exact hop.hc n hn1
      · dsimp only
        exact hop.hc n0 hn0
    · intro n hn
      rcases updateOpenNode_mem hn with hn1 | ⟨n0, hn0, hn0q, rfl⟩
      · exact hop.fc n hn1
      · rfl
    · rw [updateOpenNode_map_position]
      exact hop.nodup
    · intro n hn
      rcases updateOpenNode_mem hn with hn1 | ⟨n0, hn0, hn0q, rfl⟩
      · exact hop.notClosed n hn1
      · exact hop.notClosed n0 hn0

/-- Every open witness survives an `astarRelax` step with its cost intact
or improved (the open set has distinct positions, so the improving update
can only lower the witness itself). -/
theorem astarRelax_witness {m : GameMap} {mt : MovementType}
    {endPos : GridPosition} {closed : List (GridPosition × ℕ)} {cur : PathNode}
    {openSet : List PathNode} {q : GridPosition}
    (hnd : (openSet.map PathNode.position).Nodup)
    {n : PathNode} (hn : n ∈ openSet) :
    ∃ n2 ∈ astarRelax m mt endPos none closed cur openSet q,
      n2.position = n.position ∧ n2.gCost ≤ n.gCost := by
  rcases astarRelax_cases m mt endPos closed cur openSet q with
    heq | ⟨htrav, hnclosed, ⟨hfresh, heq⟩ | ⟨ex, hexmem, hexq, hg, heq⟩⟩
  · rw [heq]; exact ⟨n, hn, rfl, le_refl _⟩
  · rw [heq]; exact ⟨n, by simp [hn], rfl, le_refl _⟩
  · rw [heq]
    obtain ⟨n2, hn2, hp2, hg2⟩ := updateOpenNode_witness q
      (cur.gCost + stepCost m mt q) (cur.path ++ [q]) n hn
    rcases hg2 with hgeq | ⟨hpq, hgnew⟩
    · exact ⟨n2, hn2, hp2, le_of_eq hgeq⟩
    · have hne : n = ex := List.inj_on_of_nodup_map hnd hn hexmem (by rw [hpq, hexq])
      subst hne
      exact ⟨n2, hn2, hp2, by omega⟩

/-- The full A* loop invariant: the open side, plus a closed side whose
entries hold minimal reach costs over distinct in-grid positions, every
closed position fully relaxed into the state, and the start either closed
or open at cost 0. -/
structure AstarInv (m : GameMap) (mt : MovementType) (s endPos : GridPosition)
    (openSet : List PathNode) (closed : List (GridPosition × ℕ)) : Prop where
  op : AstarOpen m mt s endPos closed openSet
  closed_sound : ∀ e ∈ closed, ReachCost m mt s e.1 e.2
  closed_min : ∀ e ∈ closed, ∀ c, ReachCost m mt s e.1 c → e.2 ≤ c
  closed_nodup : (closed.map Prod.fst).Nodup
  closed_dom : ∀ e ∈ closed, e.1 = s ∨ inBoundsPos m.width m.height e.1
  closed_relax : ∀ e ∈ closed, ∀ q, validStep m mt e.1 q →
    (∃ e2 ∈ closed, e2.1 = q) ∨
    ∃ n ∈ openSet, n.position = q ∧ n.gCost ≤ e.2 + stepCost m mt q
  start_mem : (∃ e ∈ closed, e.1 = s) ∨ ∃ n ∈ openSet, n.position = s ∧ n.gCost = 0

/-- Distinct closed positions all lie in the grid (or are the start), so
the closed list never exceeds width·height + 1 entries. -/
theorem closed_length_le {m : GameMap} {s : GridPosition}
    {closed : List (GridPosition × ℕ)}
    (hnd : (closed.map Prod.fst).Nodup)
    (hdom : ∀ e ∈ closed, e.1 = s ∨ inBoundsPos m.width m.height e.1) :
    closed.length ≤ m.width * m.height + 1 := by
  have hsub : (closed.map Prod.fst).toFinset ⊆ insert s (gridFinset m) := by
    intro p hp
    obtain ⟨e, he, rfl⟩ := List.mem_map.mp (List.mem_toFinset.mp hp)
    rcases hdom e he with h1 | h1
    · rw [h1]; exact Finset.mem_insert_self _ _
    · exact Finset.mem_insert_of_mem (mem_gridFinset_of_inBounds h1)
  have hcard := Finset.card_le_card hsub
  rw [List.toFinset_card_of_nodup hnd] at hcard
  have h2 : (insert s (gridFinset m)).card ≤ m.width * m.height + 1 := by
    have := Finset.card_insert_le s (gridFinset m)
    have := gridFinset_card m
    omega
  simpa using le_trans hcard h2

/-- The frontier property: any position reachable at cost `c` but not yet
closed is covered by some open node lying on a route of total bound `c`. -/
theorem astar_frontier {m : GameMap} {mt : MovementType} {s endPos : GridPosition}
    {openSet : List PathNode} {closed : List (GridPosition × ℕ)}
    (hinv : AstarInv m mt s endPos openSet closed) :
    ∀ z c, ReachCost m mt s z c → (¬∃ e ∈ closed, e.1 = z) →
      ∃ n ∈ openSet, ∃ r, ReachCost m mt n.position z r ∧ n.gCost + r ≤ c := by
  intro z c hreach
  induction hreach with
  | refl =>
    intro hnc
    rcases hinv.start_mem with hcl | ⟨n, hn, hns, hng⟩
    · exact absurd hcl hnc
    · exact ⟨n, hn, 0, by rw [hns]; exact ReachCost.refl, by omega⟩
  | step hreach hstep ih =>
    rename_i p q c0
    intro hnc
    by_cases hpc : ∃ e ∈ closed, e.1 = p
    · obtain ⟨e, he, hep⟩ := hpc
      have hemin : e.2 ≤ c0 := hinv.closed_min e he _ (hep ▸ hreach)
      rcases hinv.closed_relax e he q (hep ▸ hstep) with hcl | ⟨n, hn, hnq, hng⟩
      · exact absurd hcl hnc
      · exact ⟨n, hn, 0, by rw [hnq]; exact ReachCost.refl, by omega⟩
    · obtain ⟨n, hn, r, hr, hle⟩ := ih hpc
      exact ⟨n, hn, r + stepCost m mt q, ReachCost.step hr hstep, by omega⟩

/-- Popping the head of the f-sorted open set yields a node whose gCost is
minimal among all reach costs of its position (Manhattan consistency). -/
theorem astar_head_min {m : GameMap} {mt : MovementType} {s endPos : GridPosition}
    {openSet : List PathNode} {closed : List (GridPosition × ℕ)}
    {cur : PathNode} {rest : List PathNode}
    (hcost : CostsPositive m mt)
    (hinv : AstarInv m mt s endPos openSet closed)
    (hsort : openSet.insertionSort (fun a b => a.fCost ≤ b.fCost) = cur :: rest) :
    ∀ c, ReachCost m mt s cur.position c → cur.gCost ≤ c := by
  have hperm : List.Perm (cur :: rest) openSet := by
    rw [← hsort]; exact List.perm_insertionSort _ _
  have hcur : cur ∈ openSet := hperm.mem_iff.mp (by simp)
  have hsorted : List.Sorted (fun a b : PathNode => a.fCost ≤ b.fCost) (cur :: rest) := by
    rw [← hsort]; exact List.sorted_insertionSort _ _
  intro c hreach
  have hnc : ¬∃ e ∈ closed, e.1 = cur.position := hinv.op.notClosed cur hcur
  obtain ⟨n, hn, r, hr, hle⟩ := astar_frontier hinv cur.position c hreach hnc
  have hfle : cur.fCost ≤ n.fCost := by
    rcases List.mem_cons.mp (hperm.mem_iff.mpr hn) with rfl | h
    · exact le_refl _
    · exact List.rel_of_sorted_cons hsorted n h
  have hHn := hinv.op.hc n hn
  have hHc := hinv.op.hc cur hcur
  have hfn := hinv.op.fc n hn
  have hfc := hinv.op.fc cur hcur
  have htel : manhattanDistance n.position endPos ≤
      r + manhattanDistance cur.position endPos :=
    manhattan_consistent_path hcost hr endPos
  omega

theorem astarFold_open {m : GameMap} {mt : MovementType} {s endPos : GridPosition}
    {closed : List (GridPosition × ℕ)} {cur : PathNode}
    (hcur : ReachCost m mt s cur.position cur.gCost)
    {b : List PathNode} (hb : AstarOpen m mt s endPos closed b) :
    AstarOpen m mt s endPos closed
      ((getNeighbors cur.position m.width m.height).foldl
        (astarRelax m mt endPos none closed cur) b) :=
  foldl_inv _ _ _ _ hb (fun _ q hq h => astarRelax_preserves_open hq hcur h)

theorem astarFold_witness {m : GameMap} {mt : MovementType} {s endPos : GridPosition}
    {closed : List (GridPosition × ℕ)} {cur : PathNode}
    (hcur : ReachCost m mt s cur.position cur.gCost)
    {b : List PathNode} (hb : AstarOpen m mt s endPos closed b)
    {p0 : GridPosition} {g0 : ℕ} (hw : ∃ n ∈ b, n.position = p0 ∧ n.gCost ≤ g0) :
    ∃ n ∈ (getNeighbors cur.position m.width m.height).foldl
        (astarRelax m mt endPos none closed cur) b,
      n.position = p0 ∧ n.gCost ≤ g0 := by
  have hrun := foldl_inv (astarRelax m mt endPos none closed cur)
    (getNeighbors cur.position m.width m.height) b
    (fun acc => AstarOpen m mt s endPos closed acc ∧
      ∃ n ∈ acc, n.position = p0 ∧ n.gCost ≤ g0)
    ⟨hb, hw⟩ ?_
  · exact hrun.2
  · intro acc q hq h
    refine ⟨astarRelax_preserves_open hq hcur h.1, ?_⟩
    obtain ⟨n, hn, hpos, hg⟩ := h.2
    obtain ⟨n2, hn2, hp2, hg2⟩ := astarRelax_witness h.1.nodup hn
    exact ⟨n2, hn2, hp2.trans hpos, le_trans hg2 hg⟩

/-- One full iteration of the A* loop body preserves the invariant: pop
the head of the f-sorted open set, close it at its gCost, and relax all
its neighbors into the remaining open set. -/
theorem astar_iteration {m : GameMap} {mt : MovementType} {s endPos : GridPosition}
    {openSet : List PathNode} {closed : List (GridPosition × ℕ)}
    {cur : PathNode} {rest : List PathNode}
    (hcost : CostsPositive m mt)
    (hinv : AstarInv m mt s endPos openSet closed)
    (hsort : openSet.insertionSort (fun a b => a.fCost ≤ b.fCost) = cur :: rest) :
    AstarInv m mt s endPos
      ((getNeighbors cur.position m.width m.height).foldl
        (astarRelax m mt endPos none ((cur.position, cur.gCost) :: closed) cur) rest)
      ((cur.position, cur.gCost) :: closed) := by
  have hperm : List.Perm (cur :: rest) openSet := by
    rw [← hsort]; exact List.perm_insertionSort _ _
  have hcurmem : cur ∈ openSet := hperm.mem_iff.mp (by simp)
  have hmemo : ∀ x ∈ rest, x ∈ openSet :=
    fun x hx => hperm.mem_iff.mp (List.mem_cons_of_mem _ hx)
  have hcurReach : ReachCost m mt s cur.position cur.gCost := hinv.op.sound cur hcurmem
  have hndall : ((cur :: rest).map PathNode.position).Nodup :=
    ((hperm.map PathNode.position).nodup_iff).mpr hinv.op.nodup
  have hcurnotrest : cur.position ∉ rest.map PathNode.position := by
    have := hndall
    simp only [List.map_cons, List.nodup_cons] at this
    exact this.1
  have hrestnd : (rest.map PathNode.position).Nodup := by
    have := hndall
    simp only [List.map_cons, List.nodup_cons] at this
    exact this.2
  have hrest_open : AstarOpen m mt s endPos ((cur.position, cur.gCost) :: closed) rest := by
    refine ⟨fun n hn => hinv.op.sound n (hmemo n hn),
      fun n hn => hinv.op.hc n (hmemo n hn),
      fun n hn => hinv.op.fc n (hmemo n hn), hrestnd, ?_⟩
    intro n hn ⟨e, he, hep⟩
    rcases List.mem_cons.mp he with rfl | he2
    · refine hcurnotrest ?_
      have hc : cur.position = n.position := hep
      rw [hc]
      exact List.mem_map_of_mem PathNode.position hn
    · exact hinv.op.notClosed n (hmemo n hn) ⟨e, he2, hep⟩
  have hpres : ∀ (acc : List PathNode) (q q2 : GridPosition),
      q2 ∈ getNeighbors cur.position m.width m.height →
      AstarOpen m mt s endPos ((cur.position, cur.gCost) :: closed) acc →
      (traversable m mt q = true →
        (∃ e2 ∈ (cur.position, cur.gCost) :: closed, e2.1 = q) ∨
        ∃ n ∈ acc, n.position = q ∧ n.gCost ≤ cur.gCost + stepCost m mt q) →
      (traversable m mt q = true →
        (∃ e2 ∈ (cur.position, cur.gCost) :: closed, e2.1 = q) ∨
        ∃ n ∈ astarRelax m mt endPos none ((cur.position, cur.gCost) :: closed) cur acc q2,
          n.position = q ∧ n.gCost ≤ cur.gCost + stepCost m mt q) := by
    intro acc q q2 _ hP hQ htrav
    rcases hQ htrav with hcl | ⟨n, hn, hnq, hng⟩
    · exact Or.inl hcl
    · obtain ⟨n2, hn2, hp2, hg2⟩ := astarRelax_witness hP.nodup hn
      exact Or.inr ⟨n2, hn2, hp2.trans hnq, le_trans hg2 hng⟩
  obtain ⟨hopen1, hQall⟩ := foldl_inv_each2
    (astarRelax m mt endPos none ((cur.position, cur.gCost) :: closed) cur)
    (getNeighbors cur.position m.width m.height) rest
    (AstarOpen m mt s endPos ((cur.position, cur.gCost) :: closed))
    (fun q acc => traversable m mt q = true →
      (∃ e2 ∈ (cur.position, cur.gCost) :: closed, e2.1 = q) ∨
      ∃ n ∈ acc, n.position = q ∧ n.gCost ≤ cur.gCost + stepCost m mt q)
    hrest_open
    (fun _ q hq h => astarRelax_preserves_open hq hcurReach h)
    (fun acc q _ _ htrav => astarRelax_relaxes m mt endPos _ cur acc q htrav)
    hpres
  refine ⟨hopen1, ?_, ?_, ?_, ?_, ?_, ?_⟩
  · intro e he
    rcases List.mem_cons.mp he with rfl | he2
    · exact hcurReach
    · exact hinv.closed_sound e he2
  · intro e he
    rcases List.mem_cons.mp he with rfl | he2
    · exact astar_head_min hcost hinv hsort
    · exact hinv.closed_min e he2
  · simp only [List.map_cons, List.nodup_cons]
    refine ⟨?_, hinv.closed_nodup⟩
    intro hmem
    obtain ⟨e, he, hep⟩ := List.mem_map.mp hmem
    exact hinv.op.notClosed cur hcurmem ⟨e, he, hep⟩
  · intro e he
    rcases List.mem_cons.mp he with rfl | he2
    · exact reachCost_dom hcurReach
    · exact hinv.closed_dom e he2
  · intro e he q hstep
    rcases List.mem_cons.mp he with rfl | he2
    · exact hQall q hstep.1 hstep.2
    · rcases hinv.closed_relax e he2 q hstep with ⟨e2, he2m, he2q⟩ | ⟨n, hn, hnq, hng⟩
      · exact Or.inl ⟨e2, List.mem_cons_of_mem _ he2m, he2q⟩
      · rcases List.mem_cons.mp (hperm.mem_iff.mpr hn) with rfl | hn2
        · exact Or.inl ⟨(n.position, n.gCost), by simp, hnq⟩
        · obtain ⟨n2, hn2m, hp2, hg2⟩ :=
            astarFold_witness hcurReach hrest_open ⟨n, hn2, rfl, le_refl n.gCost⟩
          exact Or.inr ⟨n2, hn2m, hp2.trans hnq, le_trans hg2 hng⟩
  · rcases hinv.start_mem with ⟨e, he, hes⟩ | ⟨n, hn, hns, hng⟩
    · exact Or.inl ⟨e, List.mem_cons_of_mem _ he, hes⟩
    · rcases List.mem_cons.mp (hperm.mem_iff.mpr hn) with rfl | hn2
      · exact Or.inl ⟨(n.position, n.gCost), by simp, hns⟩
      · obtain ⟨n2, hn2m, hp2, hg2⟩ :=
          astarFold_witness hcurReach hrest_open ⟨n, hn2, rfl, le_refl n.gCost⟩
        exact Or.inr ⟨n2, hn2m, hp2.trans hns, by omega⟩

/-- The start node `findPath` seeds the open set with. -/
def astarStartNode (s endPos : GridPosition) : PathNode :=
  { position := s, gCost := 0, hCost := manhattanDistance s endPos,
    fCost := 0 + manhattanDistance s endPos, path := [s] }

/-- Run to completion: with enough fuel (closed entries plus fuel exceed
the grid size plus one) and the goal reachable but not closed, the A* loop
returns a result whose cost is a reach cost of the goal and minimal among
all of them. -/
theorem astarLoop_reaches {m : GameMap} {mt : MovementType} {s endPos : GridPosition}
    (hcost : CostsPositive m mt) :
    ∀ (fuel : ℕ) (openSet : List PathNode) (closed : List (GridPosition × ℕ)),
      AstarInv m mt s endPos openSet closed →
      (¬∃ e ∈ closed, e.1 = endPos) →
      ∀ cg, ReachCost m mt s endPos cg →
      m.width * m.height + 1 < closed.length + fuel →
      ∃ pa, astarLoop m mt endPos none fuel openSet closed = some pa ∧
        ReachCost m mt s endPos pa.cost ∧
        ∀ c, ReachCost m mt s endPos c → pa.cost ≤ c := by
  intro fuel
  induction fuel with
  | zero =>
    intro openSet closed hinv _ cg _ hfuel
    have := closed_length_le hinv.closed_nodup hinv.closed_dom
    omega
  | succ fuel ih =>
    intro openSet closed hinv hgoal cg hcg hfuel
    cases hsort : openSet.insertionSort (fun a b => a.fCost ≤ b.fCost) with
    | nil =>
      have hopenempty : openSet = [] := by
        have hperm := List.perm_insertionSort (fun a b : PathNode => a.fCost ≤ b.fCost) openSet
        rw [hsort] at hperm
        exact hperm.symm.eq_nil
      obtain ⟨n, hn, -⟩ := astar_frontier hinv endPos cg hcg hgoal
      rw [hopenempty] at hn
      simp at hn
    | cons cur rest =>
      have hperm : List.Perm (cur :: rest) openSet := by
        rw [← hsort]; exact List.perm_insertionSort _ _
      by_cases hend : cur.position = endPos
      · have heq : astarLoop m mt endPos none (fuel + 1) openSet closed =
            some { path := cur.path, cost := cur.gCost } := by
          conv_lhs => unfold astarLoop
          rw [hsort]
          dsimp only
          rw [if_pos hend]
        have hcur : cur ∈ openSet := hperm.mem_iff.mp (by simp)
        have hsound := hinv.op.sound cur hcur
        rw [hend] at hsound
        refine ⟨{ path := cur.path, cost := cur.gCost }, heq, hsound, ?_⟩
        intro c hc
        exact astar_head_min hcost hinv hsort c (hend ▸ hc)
      · have hnext := astar_iteration hcost hinv hsort
        have hgoal1 : ¬∃ e ∈ (cur.position, cur.gCost) :: closed, e.1 = endPos := by
          intro ⟨e, he, hee⟩
          rcases List.mem_cons.mp he with rfl | he2
          · exact hend hee
          · exact hgoal ⟨e, he2, hee⟩
        have heq : astarLoop m mt endPos none (fuel + 1) openSet closed =
            astarLoop m mt endPos none fuel
              ((getNeighbors cur.position m.width m.height).foldl
                (astarRelax m mt endPos none ((cur.position, cur.gCost) :: closed) cur) rest)
              ((cur.position, cur.gCost) :: closed) := by
          conv_lhs => unfold astarLoop
          rw [hsort]
          dsimp only
          rw [if_neg hend]
        rw [heq]
        exact ih _ _ hnext hgoal1 cg hcg (by simp only [List.length_cons]; omega)

/-- C1: For every grid position reachable from a given start under a given
movement type, the total cost reported by `findPath` with no movement-point
cap equals the cost that `findMovementRange` records for that position,
whenever the budget admits it (the recorded cost being minimal over all
admissible walks, and `findPath` returning a route of minimal cost). -/
theorem findPath_cost_eq_findMovementRange {m : GameMap} {mt : MovementType}
    {s t : GridPosition} {budget c : ℕ}
    (hcost : CostsPositive m mt)
    (h : findMovementRange m s mt budget t = some c) :
    ∃ pa, findPath m s t mt none = some pa ∧ pa.cost = c := by
  obtain ⟨hr, hb, hmin⟩ := findMovementRange_min hcost h
  by_cases hst : s.x = t.x ∧ s.y = t.y
  · have hst2 : s = t := by
      cases s; cases t
      dsimp only at hst
      rw [hst.1, hst.2]
    have hc0 : c ≤ 0 := by
      rw [hst2] at hmin
      exact hmin 0 ReachCost.refl
    refine ⟨{ path := [], cost := 0 }, ?_, ?_⟩
    · unfold findPath
      rw [if_pos hst]
    · dsimp only
      omega
  · have hinv0 : AstarInv m mt s t [astarStartNode s t] [] := by
      refine ⟨⟨?_, ?_, ?_, ?_, ?_⟩, ?_, ?_, ?_, ?_, ?_, ?_⟩
      · intro n hn
        obtain rfl := List.mem_singleton.mp hn
        exact ReachCost.refl
      · intro n hn
        obtain rfl := List.mem_singleton.mp hn
        rfl
      · intro n hn
        obtain rfl := List.mem_singleton.mp hn
        rfl
      · simp
      · intro n _ he
        obtain ⟨e, he2, -⟩ := he
        simp at he2
      · intro e he
        simp at he
      · intro e he c2 hc2
        simp at he
      · simp
      · intro e he
        simp at he
      · intro e he q hs2
        simp at he
      · exact Or.inr ⟨astarStartNode s t, by simp, rfl, rfl⟩
    obtain ⟨pa, hpa, hsound, hminp⟩ := astarLoop_reaches hcost
      (m.width * m.height + 2) [astarStartNode s t] [] hinv0 (by simp) c hr
      (by simp only [List.length_nil]; omega)
    refine ⟨pa, ?_, ?_⟩
    · unfold findPath
      rw [if_neg hst]
      exact hpa
    · exact Nat.le_antisymm (hminp c hr) (hmin pa.cost hsound)

/-- Witness for C1 on a flat 2×2 plains map: the range map from (0,0) with
budget 4 records cost 2 at (1,1), and `findPath` returns the same cost. -/
theorem findPath_cost_eq_findMovementRange_witness :
    ∃ pa, findPath (flatMap 2 2) { x := 0, y := 0 } { x := 1, y := 1 }
        MovementType.GROUND none = some pa ∧ pa.cost = 2 :=
  @findPath_cost_eq_findMovementRange (flatMap 2 2) MovementType.GROUND
    { x := 0, y := 0 } { x := 1, y := 1 } 4 2
    (fun _ _ _ => le_refl 1) (by decide)
